import Mathlib

/-!
A shallow embedding of the core pipeline of `src/app.py` (the TDS working
paper tool): the function `process_file`, which reads a workbook (a list of
named sheets, each a 2-D grid of untyped cells), normalizes each sheet and
concatenates the results.

Modeling conventions, stated once here:

* A cell is `Cell.na` (pandas `NaN`/`pd.NA`), a text cell `Cell.str`, or a
  numeric cell `Cell.num` carrying an integer.  Integers stand in for the
  numeric values of the source; the pipeline only adds cell values, so the
  algorithm is parametric in the numeric type and `Int` is used.
* Python string operations (`str.strip`, `str.lower`, `str.split(",")`,
  substring `in`, `pd.to_numeric` on a numeric literal) are modeled as
  executable functions over `List Char`, so the kernel can evaluate them.
  `pd.to_numeric(errors="coerce")` is modeled on its integer-literal
  fragment (sign plus decimal digits); any other text coerces to `none`,
  exactly the "unparseable" case of the source.
* `pd.read_excel(..., header=None)` yields a rectangular NaN-padded frame;
  `padGrid` performs the same padding on a ragged grid.
* The development has two layers.  The unique-label model (`processSheet`,
  `process_file`) renders every label-based pandas selection
  (`data.loc[:, base_cols]`, `base_data[template_cols]`,
  `final_df[final_cols]`, `base_data[particulars_col]`) as first-match
  label lookup.  The faithful layer (`pdProcessSheet`, `process_file_pd`)
  models the full non-unique-label semantics: each key selects every
  column bearing that label (pandas `get_indexer_non_unique`), the
  exclusion filter's `.str` access raises `AttributeError` when the
  particulars label is duplicated, and `pd.concat` raises when fragment
  columns diverge.  The bridge theorem `process_file_pd_eq` proves the
  two layers coincide on well-labeled workbooks (`wellLabeled`), the
  regime in which first-match lookup agrees with pandas.
* The assignment `base_data["TDS_Amount"] = tds_sum` aligns on the pandas
  row index, which is preserved by the row filter; it is modeled by
  computing each retained row's sum from that same row, which is exactly
  what index alignment does here (the index labels are pairwise distinct).
* `DataFrame.rename(columns={old: new})` maps every column label equal to
  `old` to `new`; `renameLast` reproduces that by-label semantics.
-/

namespace TDS

/-- Model of Python `str.lower` (only character-wise lowering is needed). -/
def lowerChars (cs : List Char) : List Char := cs.map Char.toLower

/-- Model of Python `str.strip`: drop whitespace from both ends. -/
def stripChars (cs : List Char) : List Char :=
  ((cs.dropWhile Char.isWhitespace).reverse.dropWhile Char.isWhitespace).reverse

/-- Model of Python `str.split(",")` (accumulator holds the current field
reversed). -/
def splitCommaAux : List Char → List Char → List (List Char)
  | [], cur => [cur.reverse]
  | c :: cs, cur =>
    if c = ',' then cur.reverse :: splitCommaAux cs []
    else splitCommaAux cs (c :: cur)

/-- Model of Python `raw.split(",")`. -/
def splitComma (cs : List Char) : List (List Char) := splitCommaAux cs []

/-- Tests whether `needle` is a leading segment of `hay`. -/
def leadsChars : List Char → List Char → Bool
  | [], _ => true
  | _ :: _, [] => false
  | a :: as, b :: bs => a = b && leadsChars as bs

/-- Model of Python substring containment `needle in hay`. -/
def containsSub (needle : List Char) : List Char → Bool
  | [] => needle.isEmpty
  | c :: t => leadsChars needle (c :: t) || containsSub needle t

/-- Digit-string value, `none` unless nonempty and all decimal digits. -/
def digitsVal (cs : List Char) : Option Nat :=
  if cs.isEmpty || !cs.all Char.isDigit then none
  else some (cs.foldl (fun acc c => acc * 10 + (c.toNat - 48)) 0)

/-- Integer fragment of `pd.to_numeric(errors="coerce")` on text. -/
def parseIntChars (cs0 : List Char) : Option Int :=
  match stripChars cs0 with
  | '-' :: rest => (digitsVal rest).map (fun n => -(n : Int))
  | '+' :: rest => (digitsVal rest).map (fun n => (n : Int))
  | cs => (digitsVal cs).map (fun n => (n : Int))

/-- An untyped spreadsheet cell. -/
inductive Cell where
  | na : Cell
  | str : String → Cell
  | num : Int → Cell
deriving DecidableEq, Repr

/-- Model of Python `str(cell)` (`str(float("nan")) = "nan"`). -/
def Cell.chars : Cell → List Char
  | .na => "nan".data
  | .str s => s.data
  | .num n => (toString n).data

/-- Model of `pd.to_numeric(cell, errors="coerce")`. -/
def Cell.toNumeric? : Cell → Option Int
  | .na => none
  | .str s => parseIntChars s.data
  | .num n => some n

/-- One sheet of the workbook: its name and its raw (possibly ragged) grid. -/
structure Sheet where
  name : String
  grid : List (List Cell)
deriving DecidableEq, Repr

/-- Number of columns of the frame `pd.read_excel(..., header=None)` builds. -/
def gridWidth (g : List (List Cell)) : Nat :=
  g.foldr (fun r acc => max r.length acc) 0

/-- Pad a row on the right with `na` to width `w`. -/
def padRow (w : Nat) (r : List Cell) : List Cell :=
  r ++ List.replicate (w - r.length) Cell.na

/-- NaN-pad the grid to a rectangle, as `pd.read_excel` does. -/
def padGrid (g : List (List Cell)) : List (List Cell) :=
  g.map (padRow (gridWidth g))

/-- The rectangular frame of a sheet, `raw` in the source. -/
def Sheet.padded (s : Sheet) : List (List Cell) := padGrid s.grid

/-- A row every cell of which is NA (dropped by `dropna(how="all")`). -/
def rowAllNa (r : List Cell) : Bool := r.all (fun c => c = Cell.na)

/-- Index of the first list element satisfying `p` (a Python `for`/`break`
scan). -/
def firstIdx {α : Type} (p : α → Bool) : List α → Option Nat
  | [] => none
  | a :: l => if p a then some 0 else (firstIdx p l).map (· + 1)

/-- Model of `str(v).strip().lower() == "date"`, the header-row test of the source. -/
def isDateCell (c : Cell) : Bool :=
  lowerChars (stripChars c.chars) = "date".data

/-- Header-row detection: first row whose column-0 cell passes `isDateCell`. -/
def findHeaderRow (g : List (List Cell)) : Option Nat :=
  firstIdx (fun r => isDateCell (r.getD 0 Cell.na)) g

/-- The `header_row_idx` of a sheet. -/
def sheetHeaderIdx (s : Sheet) : Option Nat := findHeaderRow s.padded

/-- Model of `header = raw.iloc[header_row_idx].tolist()`. -/
def sheetHeader (s : Sheet) (h : Nat) : List Cell := s.padded.getD h []

/-- Model of `data = raw.iloc[header_row_idx + 1:].dropna(how="all")`. -/
def sheetBody (s : Sheet) (h : Nat) : List (List Cell) :=
  (s.padded.drop (h + 1)).filter (fun r => !rowAllNa r)

/-- Model of `rename(columns={base_cols[-1]: "Ledger_Amount"})`: map every label
equal to the last slice label to `Ledger_Amount` (pandas dict-rename is
by label). On an empty slice this is the identity; that case is
unreachable in the pipeline, since the UI enforces X at least 1 and a
non-skipped sheet has at least one column. -/
def renameLast (ls : List Cell) : List Cell :=
  match ls.getLast? with
  | none => ls
  | some last => ls.map (fun c => if c = last then Cell.str "Ledger_Amount" else c)

/-- Post-rename labels of the fixed-column slice `data.columns[:X]`. -/
def sliceLabels (header : List Cell) (X : Nat) : List Cell :=
  renameLast (header.take X)

/-- First slice column whose label contains `"particular"` (case-folded). -/
def particularsIdx (labels : List Cell) : Option Nat :=
  firstIdx (fun c => containsSub "particular".data (lowerChars c.chars)) labels

/-- Row filter of step 4: keep the row unless its particulars cell,
stringified and lowercased, contains `"grand total"`. -/
def keepRow (pIdx : Option Nat) (r : List Cell) : Bool :=
  match pIdx with
  | none => true
  | some j => !containsSub "grand total".data (lowerChars (r.getD j Cell.na).chars)

/-- Body rows surviving the grand-total filter, `base_data`'s rows. -/
def sheetKept (s : Sheet) (h : Nat) (X : Nat) : List (List Cell) :=
  (sheetBody s h).filter (keepRow (particularsIdx (sliceLabels (sheetHeader s h) X)))

/-- Keyword cleaning of the source:
`[k.strip().lower() for k in raw.split(",") if k.strip()]`, defaulting to
`["tds"]` when empty. -/
def cleanKeywords (raw : String) : List (List Char) :=
  let ks := ((splitComma raw.data).filter (fun k => !(stripChars k).isEmpty)).map
      (fun k => lowerChars (stripChars k))
  if ks.isEmpty then ["tds".data] else ks

/-- Positions (over the full original header) of columns whose label
contains some keyword, `tds_cols` of the source. -/
def tdsColIdxs (header : List Cell) (kws : List (List Char)) : List Nat :=
  (List.range header.length).filter
    (fun j => kws.any (fun kw => containsSub kw (lowerChars ((header.getD j Cell.na).chars))))

/-- Row-wise TDS sum: coerce each discovered column's cell to a number,
unparseable cells contributing zero, and add them up. -/
def tdsRowSum (idxs : List Nat) (r : List Cell) : Int :=
  (idxs.map (fun j => ((r.getD j Cell.na).toNumeric?).getD 0)).sum

/-- First position of a label in a column list. -/
def idxOfLabel (t : Cell) (labels : List Cell) : Option Nat :=
  firstIdx (fun c => c = t) labels

/-- Template reconciliation of step 5, per row: missing template columns
become NA, extra columns are dropped, the template order is imposed. -/
def reconcileRow (tmpl : List Cell) (labels : List Cell) (r : List Cell) : List Cell :=
  tmpl.map (fun t =>
    match idxOfLabel t labels with
    | some j => r.getD j Cell.na
    | none => Cell.na)

/-- A data frame: ordered column labels and rows of cells. -/
structure DF where
  cols : List Cell
  rows : List (List Cell)
deriving DecidableEq, Repr

/-- Model of `df[lab] = vals`: overwrite every column labeled `lab`, or append a new
column when the label is absent. -/
def DF.setCol (df : DF) (lab : Cell) (vals : List Cell) : DF :=
  if lab ∈ df.cols then
    { cols := df.cols
      rows := (df.rows.zip vals).map
        (fun p => (p.1.zip df.cols).map (fun q => if q.2 = lab then p.2 else q.1)) }
  else
    { cols := df.cols ++ [lab]
      rows := (df.rows.zip vals).map (fun p => p.1 ++ [p.2]) }

/-- The values of the first column labeled `lab`, if any. -/
def DF.colVals? (df : DF) (lab : Cell) : Option (List Cell) :=
  (idxOfLabel lab df.cols).map (fun j => df.rows.map (fun r => r.getD j Cell.na))

/-- Steps 3-7 of the per-sheet pipeline for a sheet whose header row is
`h`: slice, rename, filter, reconcile against the template, attach
`TDS_Amount` (each retained row's sum computed from that same row, which
is what the pandas index alignment of `base_data["TDS_Amount"] = tds_sum`
does) and `LedgerName`. -/
def mkFragment (tmpl : Option (List Cell)) (kws : List (List Char)) (X : Nat)
    (s : Sheet) (h : Nat) : DF :=
  let header := sheetHeader s h
  let labs := sliceLabels header X
  let kept := sheetKept s h X
  let baseCols := tmpl.getD labs
  let baseRows := match tmpl with
    | none => kept.map (fun r => r.take X)
    | some t => kept.map (fun r => reconcileRow t labs (r.take X))
  let idxs := tdsColIdxs header kws
  let tdsVals := if idxs.isEmpty then kept.map (fun _ => Cell.na)
    else kept.map (fun r => Cell.num (tdsRowSum idxs r))
  ((DF.mk baseCols baseRows).setCol (Cell.str "TDS_Amount") tdsVals).setCol
    (Cell.str "LedgerName") (kept.map (fun _ => Cell.str s.name))

/-- One iteration of the sheet loop: `none` when the sheet is skipped
(all-NA grid, no header row, or empty body), otherwise the sheet's
post-rename slice labels (used for template locking) and its fragment. -/
def processSheet (tmpl : Option (List Cell)) (kws : List (List Char)) (X : Nat)
    (s : Sheet) : Option (List Cell × DF) :=
  if s.padded.all rowAllNa then none
  else
    match sheetHeaderIdx s with
    | none => none
    | some h =>
      if (sheetBody s h).isEmpty then none
      else some (sliceLabels (sheetHeader s h) X, mkFragment tmpl kws X s h)

/-- The sheet loop, threading the template and accumulating fragments. -/
def runSheets (kws : List (List Char)) (X : Nat) :
    List Sheet → Option (List Cell) → List DF → Option (List Cell) × List DF
  | [], tmpl, acc => (tmpl, acc)
  | s :: rest, tmpl, acc =>
    match processSheet tmpl kws X s with
    | none => runSheets kws X rest tmpl acc
    | some (labs, frag) => runSheets kws X rest (some (tmpl.getD labs)) (acc ++ [frag])

/-- Model of `pd.concat(all_ledgers, ignore_index=True)` in the regime where all
fragments share one column list (established by `runSheets_frag_cols`). -/
def concatFrames : List DF → DF
  | [] => ⟨[], []⟩
  | f :: fs => ⟨f.cols, ((f :: fs).map DF.rows).flatten⟩

/-- Model of `final_df[final_cols]`, per row (total where pandas would raise on a
label absent from the frame — unreachable here, since every final column
is a column of the concatenated frame). -/
def selectCols (df : DF) (wanted : List Cell) : DF :=
  ⟨wanted, df.rows.map (reconcileRow wanted df.cols)⟩

/-- The core `process_file` of `src/app.py`: `none` models the Python
`None` ("no data") return. The branch pairing a nonempty fragment list
with an unlocked template is unreachable (a fragment locks the template);
Python would raise there, and the model returns `none`. -/
def process_file (sheets : List Sheet) (fixed_cols : Nat) (kwRaw : String) :
    Option DF :=
  let kws := cleanKeywords kwRaw
  match runSheets kws fixed_cols sheets none [] with
  | (_, []) => none
  | (none, _ :: _) => none
  | (some tmpl, f :: fs) =>
    some (selectCols (concatFrames (f :: fs))
      (tmpl ++ [Cell.str "TDS_Amount", Cell.str "LedgerName"]))

/-- The per-sheet TDS column values, as attached to the fragment. -/
def tdsValsOf (kws : List (List Char)) (X : Nat) (s : Sheet) (h : Nat) : List Cell :=
  if (tdsColIdxs (sheetHeader s h) kws).isEmpty
    then (sheetKept s h X).map (fun _ => Cell.na)
    else (sheetKept s h X).map
      (fun r => Cell.num (tdsRowSum (tdsColIdxs (sheetHeader s h) kws) r))

/-- The three skip conditions of the sheet loop: all-NA grid, no header
row, or empty body after dropping blank rows. -/
def sheetSkips (s : Sheet) : Bool :=
  s.padded.all rowAllNa ||
    match sheetHeaderIdx s with
    | none => true
    | some h => (sheetBody s h).isEmpty

/-- Fragments contributed by `sheets` once the template `t` is locked. -/
def tailFrags (kws : List (List Char)) (X : Nat) (t : List Cell)
    (sheets : List Sheet) : List DF :=
  sheets.filterMap (fun s => (processSheet (some t) kws X s).map Prod.snd)

/-- The template the run over `sheets` locks (if any). -/
def lockedTemplate (sheets : List Sheet) (fixed_cols : Nat) (kwRaw : String) :
    Option (List Cell) :=
  (runSheets (cleanKeywords kwRaw) fixed_cols sheets none []).1

/-- The fragments the run over `sheets` accumulates, in sheet order. -/
def resultFrags (sheets : List Sheet) (fixed_cols : Nat) (kwRaw : String) :
    List DF :=
  (runSheets (cleanKeywords kwRaw) fixed_cols sheets none []).2

/-- A concrete two-sheet workbook (the worked example of the spec), used
by the witness theorems below. -/
def sheetA : Sheet :=
  ⟨"SheetA",
    [[Cell.str "junk"],
     [],
     [Cell.str "Date", Cell.str "Particulars", Cell.str "Amount", Cell.str "TDS Payable"],
     [Cell.str "2024-01-01", Cell.str "Purchase", Cell.num 100, Cell.num 10]]⟩

/-- A sheet with no row whose first cell is `"date"`; always skipped. -/
def sheetB : Sheet := ⟨"SheetB", [[Cell.str "nothing"], [Cell.num 5]]⟩

/-- A sheet whose fixed-column slice carries a duplicated header label
(`"Amt"` twice), the last of which is also the slice's last column. -/
def sheetDup : Sheet :=
  ⟨"Dup",
    [[Cell.str "Date", Cell.str "Amt", Cell.str "Amt"],
     [Cell.str "2024", Cell.num 1, Cell.num 2]]⟩

/-!
### The faithful pandas layer

The definitions above model every label-based pandas selection by
first-match lookup, which agrees with pandas only while column labels are
pairwise distinct.  The layer below models the full pandas semantics on a
possibly non-unique column axis:

* `df[keys]` / `df.loc[:, keys]` resolve keys through
  `get_indexer_non_unique`: each key selects **every** column bearing that
  label, in column order, keys processed left to right — so a duplicated
  label widens the selection;
* `base_data[particulars_col]` is a Series only when the label occurs
  once; with the label duplicated it is a DataFrame and the `.str`
  accessor raises `AttributeError`, aborting the run;
* `data[tds_cols]` receives one label per matching header position, and
  each occurrence again selects every matching column, so a duplicated
  matched label is double-counted in the row sum;
* `pd.concat` stacks frames sharing one column list; frames produced by
  this pipeline diverge only when duplicate labels are involved, where
  pandas column alignment raises.

Runs of this layer end in `Except PdErr (Option DF)`: `.ok none` is the
"no data" signal, `.error` an aborted run.  The theorem
`process_file_pd_eq` proves that on workbooks whose header labels (and
post-rename slice labels) are pairwise distinct the two layers coincide,
which is the regime in which the unique-label model above is used.
-/

/-- Pandas failure modes reachable in this pipeline on duplicate-label
inputs. -/
inductive PdErr where
  | attrError : PdErr
  | concatError : PdErr
deriving DecidableEq, Repr

instance exceptDecEq {ε α : Type} [DecidableEq ε] [DecidableEq α] :
    DecidableEq (Except ε α) := fun a b =>
  match a, b with
  | .error e, .error f =>
    if h : e = f then isTrue (by rw [h])
    else isFalse (by intro hc; cases hc; exact h rfl)
  | .error _, .ok _ => isFalse (by intro hc; cases hc)
  | .ok _, .error _ => isFalse (by intro hc; cases hc)
  | .ok a, .ok b =>
    if h : a = b then isTrue (by rw [h])
    else isFalse (by intro hc; cases hc; exact h rfl)

/-- Positions of every column of `cols` bearing the label `lab`, in
order. -/
def labelPositions (cols : List Cell) (lab : Cell) : List Nat :=
  (List.range cols.length).filter (fun j => cols.getD j Cell.na = lab)

/-- Model of pandas label-based selection on a possibly non-unique column
axis (`df[keys]`, `df.loc[:, keys]`): each key selects every column
bearing that label, in column order, keys processed left to right.  A key
absent from `cols` contributes nothing; in this pipeline every selection
key is present (missing template labels are appended before selection),
so the pandas KeyError path is unreachable. -/
def selectPositions (cols : List Cell) (keys : List Cell) : List Nat :=
  (keys.map (fun k => labelPositions cols k)).flatten

/-- Gather the cells of `r` at positions `ps`. -/
def gatherRow (ps : List Nat) (r : List Cell) : List Cell :=
  ps.map (fun j => r.getD j Cell.na)

/-- Faithful label selection, producing the selected sub-frame. -/
def DF.selectKeys (df : DF) (keys : List Cell) : DF :=
  ⟨gatherRow (selectPositions df.cols keys) df.cols,
   df.rows.map (gatherRow (selectPositions df.cols keys))⟩

/-- The slice keys `base_cols = data.columns[:X]` (a positional label
slice; the labels themselves, not yet the selected columns). -/
def sliceKeys (header : List Cell) (X : Nat) : List Cell := header.take X

/-- The dict-rename `{base_cols[-1]: "Ledger_Amount"}` applied to a label
list: every label equal to the last slice key is mapped. -/
def renameCols (keys : List Cell) (cols : List Cell) : List Cell :=
  match keys.getLast? with
  | none => cols
  | some last => cols.map (fun c => if c = last then Cell.str "Ledger_Amount" else c)

/-- The column positions `data.loc[:, base_cols]` selects (non-unique
expansion over the full header). -/
def pdSlicePs (header : List Cell) (X : Nat) : List Nat :=
  selectPositions header (sliceKeys header X)

/-- The post-rename column labels of `base_data` (the expanded slice). -/
def pdBaseCols (header : List Cell) (X : Nat) : List Cell :=
  renameCols (sliceKeys header X) (gatherRow (pdSlicePs header X) header)

/-- The first column label of `cols` containing "particular" case-folded
(the source's for/break loop over `base_data.columns`; a label that
stringifies to something containing "particular" is never falsy, so
Python truthiness agrees with presence). -/
def particularsLabel (cols : List Cell) : Option Cell :=
  (firstIdx (fun c => containsSub "particular".data (lowerChars c.chars)) cols).map
    (fun j => cols.getD j Cell.na)

/-- The exclusion filter as a predicate on full body rows, or the error
the source raises.  `base_data[particulars_col]` is a Series only when
the label occurs exactly once in `base_data` — then a row is kept unless
its cell there, case-folded, contains "grand total".  With the label
duplicated the selection is a DataFrame and `.str` raises
AttributeError.  (The zero-occurrence case of the inner match is
unreachable — the label was read off `base_data.columns` — and pandas
would raise there too.) -/
def pdKeep (header : List Cell) (X : Nat) : Except PdErr (List Cell → Bool) :=
  match particularsLabel (pdBaseCols header X) with
  | none => .ok (fun _ => true)
  | some lab =>
    match labelPositions (pdBaseCols header X) lab with
    | [j] => .ok (fun r =>
        !containsSub "grand total".data
          (lowerChars ((r.getD ((pdSlicePs header X).getD j 0) Cell.na).chars)))
    | _ => .error .attrError

/-- The matched keyword labels, one entry per matching header position
(`tds_cols` of the source). -/
def tdsLabels (header : List Cell) (kws : List (List Char)) : List Cell :=
  (tdsColIdxs header kws).map (fun j => header.getD j Cell.na)

/-- The column positions `data[tds_cols]` selects: each matched label
expands to every column bearing it, so a duplicated matched label is
counted once per occurrence. -/
def pdTdsPositions (header : List Cell) (kws : List (List Char)) : List Nat :=
  selectPositions header (tdsLabels header kws)

/-- The faithful per-row TDS sum of
`data[tds_cols].apply(pd.to_numeric, errors="coerce").sum(axis=1)`. -/
def pdTdsSum (header : List Cell) (kws : List (List Char)) (r : List Cell) : Int :=
  tdsRowSum (pdTdsPositions header kws) r

/-- The reconciliation loop `for col in template_cols: if col not in
base_data.columns: base_data[col] = pd.NA`: append each missing template
label once, in template order, as an all-NA column. -/
def appendMissing (tmpl : List Cell) (df : DF) : DF :=
  tmpl.foldl
    (fun acc t =>
      if t ∈ acc.cols then acc
      else ⟨acc.cols ++ [t], acc.rows.map (fun r => r ++ [Cell.na])⟩)
    df

/-- Template reconciliation `base_data = base_data[template_cols]` after
the append loop, with non-unique label expansion. -/
def reconcileFrame (tmpl : List Cell) (df : DF) : DF :=
  (appendMissing tmpl df).selectKeys tmpl

/-- Steps 5-7 on the retained rows `kept` (full-width body rows):
expanded slice, template reconciliation, TDS column (each retained row's
sum computed from that same row, as the index alignment of
`base_data["TDS_Amount"] = tds_sum` does), sheet tag. -/
def pdFragCore (tmpl : Option (List Cell)) (kws : List (List Char))
    (header : List Cell) (X : Nat) (kept : List (List Cell)) (name : String) : DF :=
  let base : DF := ⟨pdBaseCols header X, kept.map (gatherRow (pdSlicePs header X))⟩
  let base2 := match tmpl with
    | none => base
    | some t => reconcileFrame t base
  let tdsVals := if (tdsColIdxs header kws).isEmpty
    then kept.map (fun _ => Cell.na)
    else kept.map (fun r => Cell.num (pdTdsSum header kws r))
  (base2.setCol (Cell.str "TDS_Amount") tdsVals).setCol
    (Cell.str "LedgerName") (kept.map (fun _ => Cell.str name))

/-- The retained body rows of a sheet, or the filter error. -/
def pdKept (s : Sheet) (h : Nat) (X : Nat) : Except PdErr (List (List Cell)) :=
  (pdKeep (sheetHeader s h) X).map (fun keep => (sheetBody s h).filter keep)

/-- One iteration of the sheet loop with faithful non-unique-label
semantics: `.ok none` when the sheet is skipped (the three local skip
conditions), `.error` when the exclusion filter aborts the run, otherwise
the locked labels (`base_data.columns` after the rename) and the
fragment. -/
def pdProcessSheet (tmpl : Option (List Cell)) (kws : List (List Char)) (X : Nat)
    (s : Sheet) : Except PdErr (Option (List Cell × DF)) :=
  if s.padded.all rowAllNa then .ok none
  else
    match sheetHeaderIdx s with
    | none => .ok none
    | some h =>
      if (sheetBody s h).isEmpty then .ok none
      else
        match pdKeep (sheetHeader s h) X with
        | .error e => .error e
        | .ok keep => .ok (some (pdBaseCols (sheetHeader s h) X,
            pdFragCore tmpl kws (sheetHeader s h) X
              ((sheetBody s h).filter keep) s.name))

/-- The sheet loop of the faithful layer; a sheet error aborts the run. -/
def pdRunSheets (kws : List (List Char)) (X : Nat) :
    List Sheet → Option (List Cell) → List DF →
      Except PdErr (Option (List Cell) × List DF)
  | [], tmpl, acc => .ok (tmpl, acc)
  | s :: rest, tmpl, acc =>
    match pdProcessSheet tmpl kws X s with
    | .error e => .error e
    | .ok none => pdRunSheets kws X rest tmpl acc
    | .ok (some (labs, frag)) =>
      pdRunSheets kws X rest (some (tmpl.getD labs)) (acc ++ [frag])

/-- Model of `pd.concat(frames, ignore_index=True)`: frames sharing one
column list are stacked; otherwise pandas aligns on columns, which on
every diverging input this pipeline produces involves duplicate labels
and raises.  The empty case (pandas raises "No objects to concatenate")
is unreachable: the caller checks for fragments first. -/
def pdConcat : List DF → Except PdErr DF
  | [] => .error .concatError
  | f :: fs =>
    if fs.all (fun g => g.cols = f.cols) then
      .ok ⟨f.cols, ((f :: fs).map DF.rows).flatten⟩
    else .error .concatError

/-- The core `process_file` with faithful non-unique-label semantics:
`.ok none` models the Python `None` return, `.error` an uncaught pandas
exception aborting the run.  The branch pairing fragments with an
unlocked template is unreachable (a fragment locks the template). -/
def process_file_pd (sheets : List Sheet) (fixed_cols : Nat) (kwRaw : String) :
    Except PdErr (Option DF) :=
  match pdRunSheets (cleanKeywords kwRaw) fixed_cols sheets none [] with
  | .error e => .error e
  | .ok (_, []) => .ok none
  | .ok (none, _ :: _) => .ok none
  | .ok (some tmpl, f :: fs) =>
    match pdConcat (f :: fs) with
    | .error e => .error e
    | .ok cf =>
      .ok (some (cf.selectKeys
        (tmpl ++ [Cell.str "TDS_Amount", Cell.str "LedgerName"])))

/-- The template the faithful run locks. -/
def pdLockedTemplate (sheets : List Sheet) (fixed_cols : Nat) (kwRaw : String) :
    Except PdErr (Option (List Cell)) :=
  (pdRunSheets (cleanKeywords kwRaw) fixed_cols sheets none []).map Prod.fst

/-- The fragments the faithful run accumulates, in sheet order. -/
def pdResultFrags (sheets : List Sheet) (fixed_cols : Nat) (kwRaw : String) :
    Except PdErr (List DF) :=
  (pdRunSheets (cleanKeywords kwRaw) fixed_cols sheets none []).map Prod.snd

/-- A sheet is well-labeled at width `X` when its full header labels are
pairwise distinct and remain so after the rename of the last slice label.
In this regime every label-based selection of the source resolves to one
column per key. -/
def wellLabeled (X : Nat) (s : Sheet) : Bool :=
  match sheetHeaderIdx s with
  | none => true
  | some h =>
    decide (sheetHeader s h).Nodup && decide (sliceLabels (sheetHeader s h) X).Nodup

/-- The shared column list of every fragment a run with locked template
`t` produces. -/
def fragColsOf (t : List Cell) : List Cell :=
  let c1 := if Cell.str "TDS_Amount" ∈ t then t else t ++ [Cell.str "TDS_Amount"]
  if Cell.str "LedgerName" ∈ c1 then c1 else c1 ++ [Cell.str "LedgerName"]

/-- The template the faithful run locks at `sheetDup` with X = 3: the
duplicate-expanded, fully renamed slice. -/
def dupTemplate : List Cell :=
  [Cell.str "Date", Cell.str "Ledger_Amount", Cell.str "Ledger_Amount",
   Cell.str "Ledger_Amount", Cell.str "Ledger_Amount"]

/-- The table the faithful run produces at `sheetDup` with X = 3: the
final selection expands each duplicated template label again. -/
def dupResult : DF :=
  ⟨[Cell.str "Date"] ++ List.replicate 16 (Cell.str "Ledger_Amount")
      ++ [Cell.str "TDS_Amount", Cell.str "LedgerName"],
   [[Cell.str "2024", Cell.num 1, Cell.num 2, Cell.num 1, Cell.num 2,
     Cell.num 1, Cell.num 2, Cell.num 1, Cell.num 2,
     Cell.num 1, Cell.num 2, Cell.num 1, Cell.num 2,
     Cell.num 1, Cell.num 2, Cell.num 1, Cell.num 2,
     Cell.na, Cell.str "Dup"]]⟩

/-- A sheet with a duplicated keyword-matched header label: both columns
labeled "TDS A" match the keyword "tds". -/
def sheetDupT : Sheet :=
  ⟨"S",
    [[Cell.str "Date", Cell.str "TDS A", Cell.str "TDS A"],
     [Cell.str "2024", Cell.num 3, Cell.num 5]]⟩

/-- Another sheet with a duplicated matched label, for the row-alignment
counterexample. -/
def sheetDupU : Sheet :=
  ⟨"U",
    [[Cell.str "Date", Cell.str "tds one", Cell.str "tds one"],
     [Cell.str "2024", Cell.num 1, Cell.num 2]]⟩

/-- A sheet whose slice carries a duplicated "Particulars" label that is
not the last slice column (so it survives the rename). -/
def sheetDupP : Sheet :=
  ⟨"P",
    [[Cell.str "Date", Cell.str "Particulars", Cell.str "Particulars",
      Cell.str "Amount"],
     [Cell.str "2024", Cell.str "x", Cell.str "Grand Total", Cell.num 5]]⟩

/-! ### Characterization of the first-index scan -/

theorem firstIdx_eq_none {α : Type} (p : α → Bool) (l : List α) :
    firstIdx p l = none ↔ ∀ a ∈ l, p a = false := by
  induction l with
  | nil => simp [firstIdx]
  | cons a t ih =>
    cases hpa : p a with
    | false => simp [firstIdx, hpa, ih, Option.map_eq_none']
    | true => simp [firstIdx, hpa]

theorem firstIdx_eq_some {α : Type} (p : α → Bool) (l : List α) (i : Nat) :
    firstIdx p l = some i ↔
      (∃ a, l.get? i = some a ∧ p a = true) ∧
        ∀ k, k < i → ∀ b, l.get? k = some b → p b = false := by
  induction l generalizing i with
  | nil => simp [firstIdx]
  | cons a t ih =>
    cases hpa : p a with
    | true =>
      simp only [firstIdx, hpa, if_pos]
      constructor
      · intro h
        cases h
        exact ⟨⟨a, rfl, hpa⟩, fun k hk => absurd hk (Nat.not_lt_zero k)⟩
      · rintro ⟨⟨b, hb, hpb⟩, hmin⟩
        cases i with
        | zero => rfl
        | succ n =>
          have h0 := hmin 0 (Nat.succ_pos n) a rfl
          rw [hpa] at h0
          cases h0
    | false =>
      simp only [firstIdx, hpa, Bool.false_eq_true, if_false]
      constructor
      · intro h
        obtain ⟨j, hj, hji⟩ := Option.map_eq_some'.mp h
        subst hji
        obtain ⟨⟨b, hb, hpb⟩, hmin⟩ := (ih j).mp hj
        refine ⟨⟨b, by simpa using hb, hpb⟩, ?_⟩
        intro k hk c hc
        cases k with
        | zero =>
          simp only [List.get?_cons_zero, Option.some.injEq] at hc
          subst hc
          exact hpa
        | succ m =>
          exact hmin m (Nat.lt_of_succ_lt_succ hk) c (by simpa using hc)
      · rintro ⟨⟨b, hb, hpb⟩, hmin⟩
        cases i with
        | zero =>
          simp only [List.get?_cons_zero, Option.some.injEq] at hb
          subst hb
          rw [hpa] at hpb
          cases hpb
        | succ n =>
          have ht : firstIdx p t = some n := by
            refine (ih n).mpr ⟨⟨b, by simpa using hb, hpb⟩, ?_⟩
            intro k hk c hc
            exact hmin (k + 1) (Nat.succ_lt_succ hk) c (by simpa using hc)
          simp [ht]

theorem firstIdx_lt_length {α : Type} {p : α → Bool} {l : List α} {i : Nat}
    (h : firstIdx p l = some i) : i < l.length := by
  obtain ⟨⟨a, ha, _⟩, _⟩ := (firstIdx_eq_some p l i).mp h
  exact List.get?_eq_some.mp ha |>.fst

/-! ### Grid padding -/

theorem length_le_gridWidth {g : List (List Cell)} {r : List Cell}
    (h : r ∈ g) : r.length ≤ gridWidth g := by
  induction g with
  | nil => cases h
  | cons a t ih =>
    rcases List.mem_cons.mp h with rfl | hmem
    · exact Nat.le_max_left _ _
    · exact Nat.le_trans (ih hmem) (Nat.le_max_right _ _)

theorem padRow_length {w : Nat} {r : List Cell} (h : r.length ≤ w) :
    (padRow w r).length = w := by
  simp [padRow]
  omega

theorem padGrid_row_length {g : List (List Cell)} {r : List Cell}
    (h : r ∈ padGrid g) : r.length = gridWidth g := by
  obtain ⟨r0, hr0, rfl⟩ := List.mem_map.mp h
  exact padRow_length (length_le_gridWidth hr0)

theorem padGrid_length (g : List (List Cell)) :
    (padGrid g).length = g.length := by
  simp [padGrid]

/-! ### Sheet geometry -/

theorem sheetHeader_length {s : Sheet} {h : Nat} (hh : sheetHeaderIdx s = some h) :
    (sheetHeader s h).length = gridWidth s.grid := by
  have hlt : h < s.padded.length := firstIdx_lt_length hh
  have hmem : sheetHeader s h ∈ s.padded := by
    rw [sheetHeader, List.getD_eq_getElem s.padded [] hlt]
    exact List.getElem_mem hlt
  exact padGrid_row_length hmem

theorem sheetBody_row_length {s : Sheet} {h : Nat} {r : List Cell}
    (hr : r ∈ sheetBody s h) : r.length = gridWidth s.grid :=
  padGrid_row_length (List.mem_of_mem_drop (List.mem_of_mem_filter hr))

theorem sheetKept_row_length {s : Sheet} {h X : Nat} {r : List Cell}
    (hr : r ∈ sheetKept s h X) : r.length = gridWidth s.grid :=
  sheetBody_row_length (List.mem_of_mem_filter hr)

/-! ### Slice labels -/

theorem renameLast_length (ls : List Cell) : (renameLast ls).length = ls.length := by
  unfold renameLast
  cases ls.getLast? <;> simp

theorem sliceLabels_length (header : List Cell) (X : Nat) :
    (sliceLabels header X).length = min X header.length := by
  simp [sliceLabels, renameLast_length]

/-! ### Label lookup -/

theorem idxOfLabel_eq_none {t : Cell} {l : List Cell} :
    idxOfLabel t l = none ↔ t ∉ l := by
  rw [idxOfLabel, firstIdx_eq_none]
  constructor
  · intro hall hmem
    have := hall t hmem
    simp at this
  · intro hnot a ha
    by_cases hat : a = t
    · exact absurd (hat ▸ ha) hnot
    · simp [hat]

theorem idxOfLabel_eq_some {t : Cell} {l : List Cell} {i : Nat} :
    idxOfLabel t l = some i ↔
      l.get? i = some t ∧ ∀ k, k < i → l.get? k ≠ some t := by
  rw [idxOfLabel, firstIdx_eq_some]
  constructor
  · rintro ⟨⟨a, ha, hpa⟩, hmin⟩
    have hat : a = t := by simpa using hpa
    subst hat
    refine ⟨ha, fun k hk hkel => ?_⟩
    have hfalse := hmin k hk a hkel
    simp at hfalse
  · rintro ⟨ht, hmin⟩
    refine ⟨⟨t, ht, by simp⟩, fun k hk b hb => ?_⟩
    by_cases hbt : b = t
    · exact absurd (hbt ▸ hb) (hmin k hk)
    · simp [hbt]

theorem idxOfLabel_isSome_of_mem {t : Cell} {l : List Cell} (h : t ∈ l) :
    ∃ i, idxOfLabel t l = some i := by
  cases hi : idxOfLabel t l with
  | none => exact absurd (idxOfLabel_eq_none.mp hi) (by simpa using h)
  | some i => exact ⟨i, rfl⟩

theorem idxOfLabel_lt_length {t : Cell} {l : List Cell} {i : Nat}
    (h : idxOfLabel t l = some i) : i < l.length :=
  firstIdx_lt_length h

theorem idxOfLabel_get {t : Cell} {l : List Cell} {i : Nat}
    (h : idxOfLabel t l = some i) : l.get? i = some t :=
  (idxOfLabel_eq_some.mp h).1

theorem firstIdx_cons {α : Type} (p : α → Bool) (a : α) (t : List α) :
    firstIdx p (a :: t) = if p a then some 0 else (firstIdx p t).map (· + 1) :=
  rfl

theorem firstIdx_append_left {α : Type} {p : α → Bool} {l l' : List α} {i : Nat}
    (h : firstIdx p l = some i) : firstIdx p (l ++ l') = some i := by
  induction l generalizing i with
  | nil => cases h
  | cons a t ih =>
    rw [List.cons_append, firstIdx_cons]
    rw [firstIdx_cons] at h
    by_cases hpa : p a
    · rw [if_pos hpa] at h ⊢
      exact h
    · rw [if_neg hpa] at h ⊢
      obtain ⟨j, hj, hji⟩ := Option.map_eq_some'.mp h
      rw [ih hj, Option.map_some', hji]

theorem firstIdx_append_none {α : Type} {p : α → Bool} {l l' : List α}
    (h : firstIdx p l = none) :
    firstIdx p (l ++ l') = (firstIdx p l').map (· + l.length) := by
  induction l with
  | nil => simp
  | cons a t ih =>
    rw [List.cons_append, firstIdx_cons]
    rw [firstIdx_cons] at h
    by_cases hpa : p a
    · rw [if_pos hpa] at h
      cases h
    · rw [if_neg hpa] at h ⊢
      rw [Option.map_eq_none'] at h
      rw [ih h]
      cases firstIdx p l' with
      | none => simp
      | some v =>
        simp only [Option.map_some', Option.some.injEq, List.length_cons]
        omega

theorem idxOfLabel_append_self {t : Cell} {l : List Cell} (h : t ∉ l) :
    idxOfLabel t (l ++ [t]) = some l.length := by
  have hn : idxOfLabel t l = none := idxOfLabel_eq_none.mpr h
  have h1 : idxOfLabel t [t] = some 0 := by simp [idxOfLabel, firstIdx]
  rw [idxOfLabel] at hn h1 ⊢
  rw [firstIdx_append_none hn, h1]
  simp

/-! ### Row reconciliation -/

theorem reconcileRow_length (tmpl labels r : List Cell) :
    (reconcileRow tmpl labels r).length = tmpl.length := by
  simp [reconcileRow]

theorem idxOfLabel_get_of_nodup {cols : List Cell} (hnd : cols.Nodup)
    {n : Nat} (hn : n < cols.length) :
    idxOfLabel (cols.get ⟨n, hn⟩) cols = some n := by
  rw [idxOfLabel_eq_some]
  refine ⟨List.get?_eq_get hn, ?_⟩
  intro k hk hkel
  have hkl : k < cols.length := Nat.lt_trans hk hn
  rw [List.get?_eq_get hkl, Option.some.injEq] at hkel
  have hfin : (⟨k, hkl⟩ : Fin cols.length) = ⟨n, hn⟩ :=
    (List.Nodup.get_inj_iff hnd).mp hkel
  have hkn : k = n := congrArg Fin.val hfin
  omega

theorem reconcileRow_self {cols r : List Cell} (hnd : cols.Nodup)
    (hlen : r.length = cols.length) :
    reconcileRow cols cols r = r := by
  apply List.ext_getElem (by simp [reconcileRow_length, hlen])
  intro n h1 h2
  have hn : n < cols.length := by simpa [reconcileRow_length] using h1
  have hmap : (reconcileRow cols cols r)[n] =
      (match idxOfLabel (cols.get ⟨n, hn⟩) cols with
        | some j => r.getD j Cell.na
        | none => Cell.na) := by
    simp only [reconcileRow, List.getElem_map, List.get_eq_getElem]
  rw [hmap, idxOfLabel_get_of_nodup hnd hn]
  exact List.getD_eq_getElem r Cell.na h2

/-! ### Column assignment and lookup on frames -/

theorem setCol_cols_of_mem {df : DF} {lab : Cell} {vals : List Cell}
    (h : lab ∈ df.cols) : (df.setCol lab vals).cols = df.cols := by
  simp [DF.setCol, h]

theorem setCol_cols_of_not_mem {df : DF} {lab : Cell} {vals : List Cell}
    (h : lab ∉ df.cols) : (df.setCol lab vals).cols = df.cols ++ [lab] := by
  simp [DF.setCol, h]

theorem setCol_rows_length {df : DF} {lab : Cell} {vals : List Cell}
    (hv : vals.length = df.rows.length) :
    (df.setCol lab vals).rows.length = df.rows.length := by
  by_cases h : lab ∈ df.cols <;>
    simp [DF.setCol, h, List.length_zip, hv, Nat.min_self]

theorem setCol_row_length {df : DF} {lab : Cell} {vals : List Cell}
    (hrows : ∀ r ∈ df.rows, r.length = df.cols.length) :
    ∀ r ∈ (df.setCol lab vals).rows, r.length = (df.setCol lab vals).cols.length := by
  intro r hr
  by_cases h : lab ∈ df.cols
  · rw [setCol_cols_of_mem h]
    simp only [DF.setCol, if_pos h] at hr
    obtain ⟨p, hp, rfl⟩ := List.mem_map.mp hr
    have h1 : p.1 ∈ df.rows := (List.of_mem_zip hp).1
    simp [List.length_zip, hrows p.1 h1, Nat.min_self]
  · rw [setCol_cols_of_not_mem h]
    simp only [DF.setCol, if_neg h] at hr
    obtain ⟨p, hp, rfl⟩ := List.mem_map.mp hr
    have h1 : p.1 ∈ df.rows := (List.of_mem_zip hp).1
    simp [hrows p.1 h1]

theorem colVals?_of_idx {df : DF} {lab : Cell} {j : Nat}
    (h : idxOfLabel lab df.cols = some j) :
    df.colVals? lab = some (df.rows.map (fun r => r.getD j Cell.na)) := by
  simp [DF.colVals?, h]

theorem setCol_colVals_self {df : DF} {lab : Cell} {vals : List Cell}
    (hrows : ∀ r ∈ df.rows, r.length = df.cols.length)
    (hv : vals.length = df.rows.length) :
    (df.setCol lab vals).colVals? lab = some vals := by
  by_cases h : lab ∈ df.cols
  · obtain ⟨j, hj⟩ := idxOfLabel_isSome_of_mem h
    have hjl : j < df.cols.length := idxOfLabel_lt_length hj
    have hjlab : df.cols.get? j = some lab := idxOfLabel_get hj
    have hjlab' : df.cols.getD j Cell.na = lab := by
      rw [List.getD_eq_getElem df.cols Cell.na hjl]
      rw [List.get?_eq_getElem?, List.getElem?_eq_getElem hjl, Option.some.injEq] at hjlab
      exact hjlab
    have hcols : (df.setCol lab vals).cols = df.cols := setCol_cols_of_mem h
    rw [DF.colVals?, hcols, hj, Option.map_some', Option.some.injEq]
    simp only [DF.setCol, if_pos h]
    apply List.ext_getElem (by simp [List.length_zip, hv, Nat.min_self])
    intro n h1 h2
    have hn : n < df.rows.length := by
      simpa [List.length_zip, hv, Nat.min_self] using h1
    have hrown : df.rows[n] ∈ df.rows := List.getElem_mem (l := df.rows) hn
    have hrl : (df.rows[n]).length = df.cols.length := hrows _ hrown
    have hjr : j < ((df.rows[n]).zip df.cols).length := by
      simp [List.length_zip, hrl, Nat.min_self]
      omega
    simp only [List.getElem_map, List.getElem_zip]
    rw [List.getD_eq_getElem _ Cell.na (by simpa using hjr)]
    simp only [List.getElem_map, List.getElem_zip]
    have : df.cols[j] = lab := by
      rw [← List.getD_eq_getElem df.cols Cell.na hjl]
      exact hjlab'
    simp [this]
  · have hcols : (df.setCol lab vals).cols = df.cols ++ [lab] :=
      setCol_cols_of_not_mem h
    have hidx : idxOfLabel lab (df.cols ++ [lab]) = some df.cols.length :=
      idxOfLabel_append_self h
    rw [DF.colVals?, hcols, hidx, Option.map_some', Option.some.injEq]
    simp only [DF.setCol, if_neg h]
    apply List.ext_getElem (by simp [List.length_zip, hv, Nat.min_self])
    intro n h1 h2
    have hn : n < df.rows.length := by
      simpa [List.length_zip, hv, Nat.min_self] using h1
    have hrown : df.rows[n] ∈ df.rows := List.getElem_mem (l := df.rows) hn
    have hrl : (df.rows[n]).length = df.cols.length := hrows _ hrown
    simp only [List.getElem_map, List.getElem_zip]
    rw [List.getD_append_right _ _ _ _ (by omega)]
    simp [hrl]

theorem setCol_colVals_other {df : DF} {lab lab' : Cell} {vals : List Cell}
    (hne : lab ≠ lab') (hmem : lab ∈ df.cols)
    (hrows : ∀ r ∈ df.rows, r.length = df.cols.length)
    (hv : vals.length = df.rows.length) :
    (df.setCol lab' vals).colVals? lab = df.colVals? lab := by
  obtain ⟨j, hj⟩ := idxOfLabel_isSome_of_mem hmem
  have hjl : j < df.cols.length := idxOfLabel_lt_length hj
  have hjlab : df.cols[j] = lab := by
    have := idxOfLabel_get hj
    rw [List.get?_eq_getElem?, List.getElem?_eq_getElem hjl, Option.some.injEq] at this
    exact this
  rw [colVals?_of_idx hj]
  by_cases h : lab' ∈ df.cols
  · have hcols : (df.setCol lab' vals).cols = df.cols := setCol_cols_of_mem h
    have hj2 : idxOfLabel lab (df.setCol lab' vals).cols = some j := hcols ▸ hj
    rw [colVals?_of_idx hj2, Option.some.injEq]
    simp only [DF.setCol, if_pos h]
    apply List.ext_getElem (by simp [List.length_zip, hv, Nat.min_self])
    intro n h1 h2
    have hn : n < df.rows.length := by
      simpa [List.length_zip, hv, Nat.min_self] using h1
    have hrown : df.rows[n] ∈ df.rows := List.getElem_mem (l := df.rows) hn
    have hrl : (df.rows[n]).length = df.cols.length := hrows _ hrown
    have hjr : j < ((df.rows[n]).zip df.cols).length := by
      simp [List.length_zip, hrl, Nat.min_self]
      omega
    simp only [List.getElem_map, List.getElem_zip]
    rw [List.getD_eq_getElem _ Cell.na (by simpa using hjr)]
    simp only [List.getElem_map, List.getElem_zip, hjlab]
    rw [if_neg hne]
    rw [List.getD_eq_getElem _ Cell.na (by omega)]
  · have hcols : (df.setCol lab' vals).cols = df.cols ++ [lab'] :=
      setCol_cols_of_not_mem h
    have hj2 : idxOfLabel lab (df.setCol lab' vals).cols = some j := by
      rw [hcols]
      exact firstIdx_append_left hj
    rw [colVals?_of_idx hj2, Option.some.injEq]
    simp only [DF.setCol, if_neg h]
    apply List.ext_getElem (by simp [List.length_zip, hv, Nat.min_self])
    intro n h1 h2
    have hn : n < df.rows.length := by
      simpa [List.length_zip, hv, Nat.min_self] using h1
    have hrown : df.rows[n] ∈ df.rows := List.getElem_mem (l := df.rows) hn
    have hrl : (df.rows[n]).length = df.cols.length := hrows _ hrown
    simp only [List.getElem_map, List.getElem_zip]
    rw [List.getD_append _ _ _ _ (by omega)]

theorem setCol_mem_cols (df : DF) (lab : Cell) (vals : List Cell) :
    lab ∈ (df.setCol lab vals).cols := by
  by_cases h : lab ∈ df.cols
  · rw [setCol_cols_of_mem h]
    exact h
  · rw [setCol_cols_of_not_mem h]
    simp

/-! ### The two appended columns of a fragment -/

theorem frag_setCols_spec {df1 : DF} {tdsVals names : List Cell}
    (hinv : ∀ r ∈ df1.rows, r.length = df1.cols.length)
    (hlen1 : tdsVals.length = df1.rows.length)
    (hlen2 : names.length = df1.rows.length) :
    ((df1.setCol (Cell.str "TDS_Amount") tdsVals).setCol (Cell.str "LedgerName")
        names).colVals? (Cell.str "TDS_Amount") = some tdsVals ∧
    ((df1.setCol (Cell.str "TDS_Amount") tdsVals).setCol (Cell.str "LedgerName")
        names).colVals? (Cell.str "LedgerName") = some names ∧
    ((df1.setCol (Cell.str "TDS_Amount") tdsVals).setCol (Cell.str "LedgerName")
        names).rows.length = df1.rows.length ∧
    (∀ r ∈ ((df1.setCol (Cell.str "TDS_Amount") tdsVals).setCol
        (Cell.str "LedgerName") names).rows,
      r.length = ((df1.setCol (Cell.str "TDS_Amount") tdsVals).setCol
        (Cell.str "LedgerName") names).cols.length) ∧
    (∀ c ∈ ((df1.setCol (Cell.str "TDS_Amount") tdsVals).setCol
        (Cell.str "LedgerName") names).cols,
      c ∈ df1.cols ∨ c = Cell.str "TDS_Amount" ∨ c = Cell.str "LedgerName") ∧
    (Cell.str "TDS_Amount" ∉ df1.cols → Cell.str "LedgerName" ∉ df1.cols →
      ((df1.setCol (Cell.str "TDS_Amount") tdsVals).setCol (Cell.str "LedgerName")
        names).cols = df1.cols ++ [Cell.str "TDS_Amount", Cell.str "LedgerName"]) := by
  have hne : Cell.str "TDS_Amount" ≠ Cell.str "LedgerName" := by decide
  have hrows2 : (df1.setCol (Cell.str "TDS_Amount") tdsVals).rows.length
      = df1.rows.length := setCol_rows_length hlen1
  have hinv2 : ∀ r ∈ (df1.setCol (Cell.str "TDS_Amount") tdsVals).rows,
      r.length = (df1.setCol (Cell.str "TDS_Amount") tdsVals).cols.length :=
    setCol_row_length hinv
  have hlen2' : names.length = (df1.setCol (Cell.str "TDS_Amount") tdsVals).rows.length := by
    rw [hrows2]
    exact hlen2
  refine ⟨?_, ?_, ?_, ?_, ?_, ?_⟩
  · rw [setCol_colVals_other hne (setCol_mem_cols df1 _ tdsVals) hinv2 hlen2']
    exact setCol_colVals_self hinv hlen1
  · exact setCol_colVals_self hinv2 hlen2'
  · rw [setCol_rows_length hlen2', hrows2]
  · exact setCol_row_length hinv2
  · intro c hc
    by_cases h2 : Cell.str "LedgerName" ∈ (df1.setCol (Cell.str "TDS_Amount") tdsVals).cols
    · rw [setCol_cols_of_mem h2] at hc
      by_cases h1 : Cell.str "TDS_Amount" ∈ df1.cols
      · rw [setCol_cols_of_mem h1] at hc
        exact Or.inl hc
      · rw [setCol_cols_of_not_mem h1] at hc
        rcases List.mem_append.mp hc with h | h
        · exact Or.inl h
        · right
          left
          simpa using h
    · rw [setCol_cols_of_not_mem h2] at hc
      rcases List.mem_append.mp hc with h | h
      · by_cases h1 : Cell.str "TDS_Amount" ∈ df1.cols
        · rw [setCol_cols_of_mem h1] at h
          exact Or.inl h
        · rw [setCol_cols_of_not_mem h1] at h
          rcases List.mem_append.mp h with h' | h'
          · exact Or.inl h'
          · right
            left
            simpa using h'
      · right
        right
        simpa using h
  · intro hnot1 hnot2
    have hc2 : (df1.setCol (Cell.str "TDS_Amount") tdsVals).cols
        = df1.cols ++ [Cell.str "TDS_Amount"] := setCol_cols_of_not_mem hnot1
    have hnot2' : Cell.str "LedgerName" ∉ (df1.setCol (Cell.str "TDS_Amount") tdsVals).cols := by
      rw [hc2]
      intro hmem
      rcases List.mem_append.mp hmem with h | h
      · exact hnot2 h
      · exact hne (List.mem_singleton.mp h).symm
    rw [setCol_cols_of_not_mem hnot2', hc2, List.append_assoc]
    rfl

/-! ### Fragment structure -/

theorem mkFragment_def_some (t : List Cell) (kws : List (List Char)) (X : Nat)
    (s : Sheet) (h : Nat) :
    mkFragment (some t) kws X s h =
      ((DF.mk t ((sheetKept s h X).map
          (fun r => reconcileRow t (sliceLabels (sheetHeader s h) X) (r.take X)))).setCol
        (Cell.str "TDS_Amount")
        (if (tdsColIdxs (sheetHeader s h) kws).isEmpty
          then (sheetKept s h X).map (fun _ => Cell.na)
          else (sheetKept s h X).map
            (fun r => Cell.num (tdsRowSum (tdsColIdxs (sheetHeader s h) kws) r)))).setCol
        (Cell.str "LedgerName") ((sheetKept s h X).map (fun _ => Cell.str s.name)) :=
  rfl

theorem mkFragment_def_none (kws : List (List Char)) (X : Nat)
    (s : Sheet) (h : Nat) :
    mkFragment none kws X s h =
      ((DF.mk (sliceLabels (sheetHeader s h) X)
          ((sheetKept s h X).map (fun r => r.take X))).setCol
        (Cell.str "TDS_Amount")
        (if (tdsColIdxs (sheetHeader s h) kws).isEmpty
          then (sheetKept s h X).map (fun _ => Cell.na)
          else (sheetKept s h X).map
            (fun r => Cell.num (tdsRowSum (tdsColIdxs (sheetHeader s h) kws) r)))).setCol
        (Cell.str "LedgerName") ((sheetKept s h X).map (fun _ => Cell.str s.name)) :=
  rfl

theorem tdsValsOf_length (kws : List (List Char)) (X : Nat) (s : Sheet) (h : Nat) :
    (tdsValsOf kws X s h).length = (sheetKept s h X).length := by
  unfold tdsValsOf
  split <;> simp

theorem mkFragment_spec_some (t : List Cell) (kws : List (List Char)) (X : Nat)
    (s : Sheet) (h : Nat) :
    (mkFragment (some t) kws X s h).colVals? (Cell.str "TDS_Amount")
        = some (tdsValsOf kws X s h) ∧
    (mkFragment (some t) kws X s h).colVals? (Cell.str "LedgerName")
        = some ((sheetKept s h X).map (fun _ => Cell.str s.name)) ∧
    (mkFragment (some t) kws X s h).rows.length = (sheetKept s h X).length ∧
    (∀ r ∈ (mkFragment (some t) kws X s h).rows,
        r.length = (mkFragment (some t) kws X s h).cols.length) ∧
    (∀ c ∈ (mkFragment (some t) kws X s h).cols,
        c ∈ t ∨ c = Cell.str "TDS_Amount" ∨ c = Cell.str "LedgerName") ∧
    (Cell.str "TDS_Amount" ∉ t → Cell.str "LedgerName" ∉ t →
        (mkFragment (some t) kws X s h).cols
          = t ++ [Cell.str "TDS_Amount", Cell.str "LedgerName"]) := by
  rw [mkFragment_def_some, show
    (if (tdsColIdxs (sheetHeader s h) kws).isEmpty
      then (sheetKept s h X).map (fun _ => Cell.na)
      else (sheetKept s h X).map
        (fun r => Cell.num (tdsRowSum (tdsColIdxs (sheetHeader s h) kws) r)))
      = tdsValsOf kws X s h from rfl]
  have hinv : ∀ r ∈ (DF.mk t ((sheetKept s h X).map
      (fun r => reconcileRow t (sliceLabels (sheetHeader s h) X) (r.take X)))).rows,
      r.length = (DF.mk t ((sheetKept s h X).map
        (fun r => reconcileRow t (sliceLabels (sheetHeader s h) X) (r.take X)))).cols.length := by
    intro r hr
    obtain ⟨r0, _, rfl⟩ := List.mem_map.mp hr
    exact reconcileRow_length t _ _
  have hlen1 : (tdsValsOf kws X s h).length = ((sheetKept s h X).map
      (fun r => reconcileRow t (sliceLabels (sheetHeader s h) X) (r.take X))).length := by
    rw [tdsValsOf_length]
    simp
  have hlen2 : ((sheetKept s h X).map (fun _ => Cell.str s.name)).length
      = ((sheetKept s h X).map
        (fun r => reconcileRow t (sliceLabels (sheetHeader s h) X) (r.take X))).length := by
    simp
  obtain ⟨h1, h2, h3, h4, h5, h6⟩ := frag_setCols_spec hinv hlen1 hlen2
  refine ⟨h1, h2, ?_, h4, h5, h6⟩
  rw [h3]
  simp

theorem mkFragment_spec_none (kws : List (List Char)) (X : Nat)
    (s : Sheet) (h : Nat) (hh : sheetHeaderIdx s = some h) :
    (mkFragment none kws X s h).colVals? (Cell.str "TDS_Amount")
        = some (tdsValsOf kws X s h) ∧
    (mkFragment none kws X s h).colVals? (Cell.str "LedgerName")
        = some ((sheetKept s h X).map (fun _ => Cell.str s.name)) ∧
    (mkFragment none kws X s h).rows.length = (sheetKept s h X).length ∧
    (∀ r ∈ (mkFragment none kws X s h).rows,
        r.length = (mkFragment none kws X s h).cols.length) ∧
    (∀ c ∈ (mkFragment none kws X s h).cols,
        c ∈ sliceLabels (sheetHeader s h) X ∨
          c = Cell.str "TDS_Amount" ∨ c = Cell.str "LedgerName") ∧
    (Cell.str "TDS_Amount" ∉ sliceLabels (sheetHeader s h) X →
      Cell.str "LedgerName" ∉ sliceLabels (sheetHeader s h) X →
        (mkFragment none kws X s h).cols
          = sliceLabels (sheetHeader s h) X
            ++ [Cell.str "TDS_Amount", Cell.str "LedgerName"]) := by
  rw [mkFragment_def_none, show
    (if (tdsColIdxs (sheetHeader s h) kws).isEmpty
      then (sheetKept s h X).map (fun _ => Cell.na)
      else (sheetKept s h X).map
        (fun r => Cell.num (tdsRowSum (tdsColIdxs (sheetHeader s h) kws) r)))
      = tdsValsOf kws X s h from rfl]
  have hinv : ∀ r ∈ (DF.mk (sliceLabels (sheetHeader s h) X)
      ((sheetKept s h X).map (fun r => r.take X))).rows,
      r.length = (DF.mk (sliceLabels (sheetHeader s h) X)
        ((sheetKept s h X).map (fun r => r.take X))).cols.length := by
    intro r hr
    obtain ⟨r0, hr0, rfl⟩ := List.mem_map.mp hr
    have hlen : r0.length = gridWidth s.grid := sheetKept_row_length hr0
    simp [sliceLabels_length, sheetHeader_length hh, hlen]
  have hlen1 : (tdsValsOf kws X s h).length
      = ((sheetKept s h X).map (fun r => r.take X)).length := by
    rw [tdsValsOf_length]
    simp
  have hlen2 : ((sheetKept s h X).map (fun _ => Cell.str s.name)).length
      = ((sheetKept s h X).map (fun r => r.take X)).length := by
    simp
  obtain ⟨h1, h2, h3, h4, h5, h6⟩ := frag_setCols_spec hinv hlen1 hlen2
  refine ⟨h1, h2, ?_, h4, h5, h6⟩
  rw [h3]
  simp

/-! ### The sheet loop -/

theorem processSheet_eq_none_iff {tmpl : Option (List Cell)}
    {kws : List (List Char)} {X : Nat} {s : Sheet} :
    processSheet tmpl kws X s = none ↔ sheetSkips s = true := by
  unfold processSheet sheetSkips
  by_cases h1 : s.padded.all rowAllNa
  · simp [h1]
  · simp only [h1, Bool.false_eq_true, if_false, Bool.false_or]
    generalize sheetHeaderIdx s = oh
    cases oh with
    | none => simp
    | some h => by_cases hb : (sheetBody s h).isEmpty <;> simp [hb]

theorem processSheet_eq_some_iff {tmpl : Option (List Cell)}
    {kws : List (List Char)} {X : Nat} {s : Sheet} {p : List Cell × DF} :
    processSheet tmpl kws X s = some p ↔
      ∃ h, sheetHeaderIdx s = some h ∧ s.padded.all rowAllNa = false ∧
        (sheetBody s h).isEmpty = false ∧
        p = (sliceLabels (sheetHeader s h) X, mkFragment tmpl kws X s h) := by
  have hstep : processSheet tmpl kws X s
      = (if s.padded.all rowAllNa then none
        else match sheetHeaderIdx s with
          | none => none
          | some h =>
            if (sheetBody s h).isEmpty then none
            else some (sliceLabels (sheetHeader s h) X, mkFragment tmpl kws X s h)) :=
    rfl
  constructor
  · intro hp
    rw [hstep] at hp
    by_cases h1 : s.padded.all rowAllNa
    · rw [if_pos h1] at hp
      cases hp
    · rw [if_neg h1] at hp
      cases hidx : sheetHeaderIdx s with
      | none =>
        rw [hidx] at hp
        cases hp
      | some h =>
        rw [hidx] at hp
        have hp' : (if (sheetBody s h).isEmpty then none
            else some (sliceLabels (sheetHeader s h) X, mkFragment tmpl kws X s h))
            = some p := hp
        by_cases hb : (sheetBody s h).isEmpty
        · rw [if_pos hb] at hp'
          cases hp'
        · rw [if_neg hb] at hp'
          cases hp'
          exact ⟨h, rfl, by simpa using h1, by simpa using hb, rfl⟩
  · rintro ⟨h, hh, h1, hb, rfl⟩
    rw [hstep, if_neg (by simp [h1]), hh]
    show (if (sheetBody s h).isEmpty then none
        else some (sliceLabels (sheetHeader s h) X, mkFragment tmpl kws X s h)) = _
    rw [if_neg (by simp [hb])]

theorem runSheets_locked (kws : List (List Char)) (X : Nat) :
    ∀ (sheets : List Sheet) (t : List Cell) (acc : List DF),
      runSheets kws X sheets (some t) acc
        = (some t, acc ++ tailFrags kws X t sheets) := by
  intro sheets
  induction sheets with
  | nil =>
    intro t acc
    simp [runSheets, tailFrags]
  | cons s rest ih =>
    intro t acc
    have hstep : runSheets kws X (s :: rest) (some t) acc
        = (match processSheet (some t) kws X s with
          | none => runSheets kws X rest (some t) acc
          | some (labs, frag) =>
              runSheets kws X rest (some ((some t).getD labs)) (acc ++ [frag])) := rfl
    rw [hstep]
    cases hps : processSheet (some t) kws X s with
    | none =>
      have htf : tailFrags kws X t (s :: rest) = tailFrags kws X t rest := by
        simp [tailFrags, hps]
      show runSheets kws X rest (some t) acc = _
      rw [ih, htf]
    | some p =>
      obtain ⟨labs, frag⟩ := p
      have htf : tailFrags kws X t (s :: rest) = frag :: tailFrags kws X t rest := by
        simp [tailFrags, hps]
      show runSheets kws X rest (some ((some t).getD labs)) (acc ++ [frag]) = _
      rw [show (some t).getD labs = t from rfl, ih, htf]
      simp

theorem runSheets_from_none (kws : List (List Char)) (X : Nat) :
    ∀ (sheets : List Sheet) (acc : List DF),
      (runSheets kws X sheets none acc = (none, acc)
          ∧ ∀ s ∈ sheets, sheetSkips s = true) ∨
      (∃ pre s rest labs frag, sheets = pre ++ s :: rest ∧
        (∀ u ∈ pre, sheetSkips u = true) ∧
        processSheet none kws X s = some (labs, frag) ∧
        runSheets kws X sheets none acc
          = (some labs, acc ++ frag :: tailFrags kws X labs rest)) := by
  intro sheets
  induction sheets with
  | nil =>
    intro acc
    left
    exact ⟨rfl, by simp⟩
  | cons s rest ih =>
    intro acc
    have hstep : runSheets kws X (s :: rest) none acc
        = (match processSheet none kws X s with
          | none => runSheets kws X rest none acc
          | some (labs, frag) =>
              runSheets kws X rest (some ((none : Option (List Cell)).getD labs))
                (acc ++ [frag])) := rfl
    rw [hstep]
    cases hps : processSheet none kws X s with
    | none =>
      have hs : sheetSkips s = true := processSheet_eq_none_iff.mp hps
      rcases ih acc with ⟨hrun, hall⟩ | ⟨pre, s', rest', labs, frag, heq, hpre, hps', hrun⟩
      · left
        refine ⟨?_, ?_⟩
        · show runSheets kws X rest none acc = _
          exact hrun
        · intro u hu
          rcases List.mem_cons.mp hu with rfl | hu'
          · exact hs
          · exact hall u hu'
      · right
        refine ⟨s :: pre, s', rest', labs, frag, by rw [heq]; rfl, ?_, hps', ?_⟩
        · intro u hu
          rcases List.mem_cons.mp hu with rfl | hu'
          · exact hs
          · exact hpre u hu'
        · show runSheets kws X rest none acc = _
          exact hrun
    | some p =>
      obtain ⟨labs, frag⟩ := p
      right
      refine ⟨[], s, rest, labs, frag, rfl, by simp, hps, ?_⟩
      show runSheets kws X rest (some ((none : Option (List Cell)).getD labs))
          (acc ++ [frag]) = _
      rw [show ((none : Option (List Cell)).getD labs) = labs from rfl]
      rw [runSheets_locked]
      simp

theorem tailFrags_mem {kws : List (List Char)} {X : Nat} {t : List Cell}
    {fs : List Sheet} {f : DF} (hf : f ∈ tailFrags kws X t fs) :
    ∃ s h, sheetHeaderIdx s = some h ∧ s ∈ fs ∧
      f = mkFragment (some t) kws X s h := by
  unfold tailFrags at hf
  obtain ⟨s, hs, hmap⟩ := List.mem_filterMap.mp hf
  obtain ⟨p, hp, hsnd⟩ := Option.map_eq_some'.mp hmap
  obtain ⟨h, hh, _, _, hpe⟩ := processSheet_eq_some_iff.mp hp
  refine ⟨s, h, hh, hs, ?_⟩
  rw [← hsnd, hpe]

theorem process_file_cases (sheets : List Sheet) (X : Nat) (kwRaw : String) :
    (process_file sheets X kwRaw = none ∧ ∀ s ∈ sheets, sheetSkips s = true) ∨
    (∃ pre s rest labs frag,
      sheets = pre ++ s :: rest ∧
      (∀ u ∈ pre, sheetSkips u = true) ∧
      processSheet none (cleanKeywords kwRaw) X s = some (labs, frag) ∧
      lockedTemplate sheets X kwRaw = some labs ∧
      resultFrags sheets X kwRaw
        = frag :: tailFrags (cleanKeywords kwRaw) X labs rest ∧
      process_file sheets X kwRaw
        = some (selectCols
            (concatFrames (frag :: tailFrags (cleanKeywords kwRaw) X labs rest))
            (labs ++ [Cell.str "TDS_Amount", Cell.str "LedgerName"]))) := by
  have hstep : process_file sheets X kwRaw
      = (match runSheets (cleanKeywords kwRaw) X sheets none [] with
        | (_, []) => none
        | (none, _ :: _) => none
        | (some tmpl, f :: fs) =>
          some (selectCols (concatFrames (f :: fs))
            (tmpl ++ [Cell.str "TDS_Amount", Cell.str "LedgerName"]))) := rfl
  rcases runSheets_from_none (cleanKeywords kwRaw) X sheets [] with ⟨hrun, hall⟩ |
    ⟨pre, s, rest, labs, frag, heq, hpre, hps, hrun⟩
  · left
    refine ⟨?_, hall⟩
    rw [hstep, hrun]
  · right
    rw [List.nil_append] at hrun
    refine ⟨pre, s, rest, labs, frag, heq, hpre, hps, ?_, ?_, ?_⟩
    · show (runSheets (cleanKeywords kwRaw) X sheets none []).1 = some labs
      rw [hrun]
    · show (runSheets (cleanKeywords kwRaw) X sheets none []).2 = _
      rw [hrun]
    · rw [hstep, hrun]

/-! ### Structure of the faithful layer -/

theorem gatherRow_length (ps : List Nat) (r : List Cell) :
    (gatherRow ps r).length = ps.length := by
  simp [gatherRow]

theorem renameCols_length (keys cols : List Cell) :
    (renameCols keys cols).length = cols.length := by
  unfold renameCols
  cases keys.getLast? <;> simp

theorem pdBaseCols_length (header : List Cell) (X : Nat) :
    (pdBaseCols header X).length = (pdSlicePs header X).length := by
  rw [pdBaseCols, renameCols_length, gatherRow_length]

theorem selectPositions_nil (cols : List Cell) : selectPositions cols [] = [] :=
  rfl

theorem selectPositions_cons (cols : List Cell) (k : Cell) (ks : List Cell) :
    selectPositions cols (k :: ks) = labelPositions cols k ++ selectPositions cols ks := by
  simp [selectPositions]

theorem selectKeys_cols (df : DF) (keys : List Cell) :
    (df.selectKeys keys).cols = gatherRow (selectPositions df.cols keys) df.cols :=
  rfl

theorem selectKeys_rows_length (df : DF) (keys : List Cell) :
    (df.selectKeys keys).rows.length = df.rows.length := by
  simp [DF.selectKeys]

theorem selectKeys_rect (df : DF) (keys : List Cell) :
    ∀ r ∈ (df.selectKeys keys).rows,
      r.length = (df.selectKeys keys).cols.length := by
  intro r hr
  obtain ⟨r0, _, rfl⟩ := List.mem_map.mp hr
  rw [gatherRow_length, selectKeys_cols, gatherRow_length]

theorem appendMissing_rows_length (t : List Cell) (df : DF) :
    (appendMissing t df).rows.length = df.rows.length := by
  induction t generalizing df with
  | nil => rfl
  | cons a t' ih =>
    show (appendMissing t' (if a ∈ df.cols then df
      else ⟨df.cols ++ [a], df.rows.map (fun r => r ++ [Cell.na])⟩)).rows.length
      = df.rows.length
    by_cases h : a ∈ df.cols
    · rw [if_pos h, ih]
    · rw [if_neg h, ih]
      simp

theorem reconcileFrame_rows_length (t : List Cell) (df : DF) :
    (reconcileFrame t df).rows.length = df.rows.length := by
  rw [reconcileFrame, selectKeys_rows_length, appendMissing_rows_length]

theorem reconcileFrame_rect (t : List Cell) (df : DF) :
    ∀ r ∈ (reconcileFrame t df).rows,
      r.length = (reconcileFrame t df).cols.length :=
  selectKeys_rect _ _

theorem pdFragCore_def_none (kws : List (List Char)) (header : List Cell)
    (X : Nat) (kept : List (List Cell)) (name : String) :
    pdFragCore none kws header X kept name =
      ((DF.mk (pdBaseCols header X)
          (kept.map (gatherRow (pdSlicePs header X)))).setCol
        (Cell.str "TDS_Amount")
        (if (tdsColIdxs header kws).isEmpty then kept.map (fun _ => Cell.na)
          else kept.map (fun r => Cell.num (pdTdsSum header kws r)))).setCol
        (Cell.str "LedgerName") (kept.map (fun _ => Cell.str name)) :=
  rfl

theorem pdFragCore_def_some (t : List Cell) (kws : List (List Char))
    (header : List Cell) (X : Nat) (kept : List (List Cell)) (name : String) :
    pdFragCore (some t) kws header X kept name =
      ((reconcileFrame t (DF.mk (pdBaseCols header X)
          (kept.map (gatherRow (pdSlicePs header X))))).setCol
        (Cell.str "TDS_Amount")
        (if (tdsColIdxs header kws).isEmpty then kept.map (fun _ => Cell.na)
          else kept.map (fun r => Cell.num (pdTdsSum header kws r)))).setCol
        (Cell.str "LedgerName") (kept.map (fun _ => Cell.str name)) :=
  rfl

theorem pdFragCore_spec (tmpl : Option (List Cell)) (kws : List (List Char))
    (header : List Cell) (X : Nat) (kept : List (List Cell)) (name : String) :
    (pdFragCore tmpl kws header X kept name).colVals? (Cell.str "TDS_Amount")
      = some (if (tdsColIdxs header kws).isEmpty then kept.map (fun _ => Cell.na)
          else kept.map (fun r => Cell.num (pdTdsSum header kws r))) ∧
    (pdFragCore tmpl kws header X kept name).colVals? (Cell.str "LedgerName")
      = some (kept.map (fun _ => Cell.str name)) ∧
    (pdFragCore tmpl kws header X kept name).rows.length = kept.length ∧
    (∀ r ∈ (pdFragCore tmpl kws header X kept name).rows,
      r.length = (pdFragCore tmpl kws header X kept name).cols.length) := by
  have hvlen : (if (tdsColIdxs header kws).isEmpty then kept.map (fun _ => Cell.na)
      else kept.map (fun r => Cell.num (pdTdsSum header kws r))).length
      = kept.length := by
    split <;> simp
  cases tmpl with
  | none =>
    rw [pdFragCore_def_none]
    have hinv : ∀ r ∈ (DF.mk (pdBaseCols header X)
        (kept.map (gatherRow (pdSlicePs header X)))).rows,
        r.length = (DF.mk (pdBaseCols header X)
          (kept.map (gatherRow (pdSlicePs header X)))).cols.length := by
      intro r hr
      obtain ⟨r0, _, rfl⟩ := List.mem_map.mp hr
      show (gatherRow _ r0).length = (pdBaseCols header X).length
      rw [gatherRow_length, pdBaseCols_length]
    obtain ⟨h1, h2, h3, h4, _, _⟩ :=
      @frag_setCols_spec
        (DF.mk (pdBaseCols header X) (kept.map (gatherRow (pdSlicePs header X))))
        (if (tdsColIdxs header kws).isEmpty then kept.map (fun _ => Cell.na)
          else kept.map (fun r => Cell.num (pdTdsSum header kws r)))
        (kept.map (fun _ => Cell.str name))
        hinv (by rw [hvlen]; simp) (by simp)
    refine ⟨h1, h2, ?_, h4⟩
    rw [h3]
    simp
  | some t =>
    rw [pdFragCore_def_some]
    have hinv : ∀ r ∈ (reconcileFrame t (DF.mk (pdBaseCols header X)
        (kept.map (gatherRow (pdSlicePs header X))))).rows,
        r.length = (reconcileFrame t (DF.mk (pdBaseCols header X)
          (kept.map (gatherRow (pdSlicePs header X))))).cols.length :=
      reconcileFrame_rect _ _
    have hrl : (reconcileFrame t (DF.mk (pdBaseCols header X)
        (kept.map (gatherRow (pdSlicePs header X))))).rows.length = kept.length := by
      rw [reconcileFrame_rows_length]
      simp
    obtain ⟨h1, h2, h3, h4, _, _⟩ :=
      @frag_setCols_spec
        (reconcileFrame t (DF.mk (pdBaseCols header X)
          (kept.map (gatherRow (pdSlicePs header X)))))
        (if (tdsColIdxs header kws).isEmpty then kept.map (fun _ => Cell.na)
          else kept.map (fun r => Cell.num (pdTdsSum header kws r)))
        (kept.map (fun _ => Cell.str name))
        hinv (by rw [hvlen, hrl]) (by simp [hrl])
    refine ⟨h1, h2, ?_, h4⟩
    rw [h3, hrl]

theorem pdProcessSheet_unfold (tmpl : Option (List Cell))
    (kws : List (List Char)) (X : Nat) (s : Sheet) :
    pdProcessSheet tmpl kws X s
      = (if s.padded.all rowAllNa then .ok none
        else match sheetHeaderIdx s with
          | none => .ok none
          | some h =>
            if (sheetBody s h).isEmpty then .ok none
            else match pdKeep (sheetHeader s h) X with
              | .error e => .error e
              | .ok keep => .ok (some (pdBaseCols (sheetHeader s h) X,
                  pdFragCore tmpl kws (sheetHeader s h) X
                    ((sheetBody s h).filter keep) s.name))) :=
  rfl

theorem pdProcessSheet_eq_ok_none_iff {tmpl : Option (List Cell)}
    {kws : List (List Char)} {X : Nat} {s : Sheet} :
    pdProcessSheet tmpl kws X s = .ok none ↔ sheetSkips s = true := by
  rw [pdProcessSheet_unfold]
  unfold sheetSkips
  by_cases h1 : s.padded.all rowAllNa
  · simp [h1]
  · simp only [h1, Bool.false_eq_true, if_false, Bool.false_or]
    generalize sheetHeaderIdx s = oh
    cases oh with
    | none => simp
    | some h =>
      by_cases hb : (sheetBody s h).isEmpty
      · simp [hb]
      · simp only [hb, Bool.false_eq_true, if_false]
        cases hk : pdKeep (sheetHeader s h) X with
        | error e => simp
        | ok keep => simp

theorem pdProcessSheet_eq_error_iff {tmpl : Option (List Cell)}
    {kws : List (List Char)} {X : Nat} {s : Sheet} {e : PdErr} :
    pdProcessSheet tmpl kws X s = .error e ↔
      ∃ h, sheetHeaderIdx s = some h ∧ s.padded.all rowAllNa = false ∧
        (sheetBody s h).isEmpty = false ∧
        pdKeep (sheetHeader s h) X = .error e := by
  constructor
  · intro hp
    rw [pdProcessSheet_unfold] at hp
    by_cases h1 : s.padded.all rowAllNa
    · rw [if_pos h1] at hp
      cases hp
    · rw [if_neg h1] at hp
      cases hidx : sheetHeaderIdx s with
      | none =>
        rw [hidx] at hp
        cases hp
      | some h =>
        rw [hidx] at hp
        have hp' : (if (sheetBody s h).isEmpty
            then (.ok none : Except PdErr (Option (List Cell × DF)))
            else match pdKeep (sheetHeader s h) X with
              | .error e => .error e
              | .ok keep => .ok (some (pdBaseCols (sheetHeader s h) X,
                  pdFragCore tmpl kws (sheetHeader s h) X
                    ((sheetBody s h).filter keep) s.name))) = .error e := hp
        by_cases hb : (sheetBody s h).isEmpty
        · rw [if_pos hb] at hp'
          cases hp'
        · rw [if_neg hb] at hp'
          cases hk : pdKeep (sheetHeader s h) X with
          | error e' =>
            rw [hk] at hp'
            have hp'' : (Except.error e' : Except PdErr (Option (List Cell × DF)))
                = .error e := hp'
            cases hp''
            exact ⟨h, rfl, by simpa using h1, by simpa using hb, hk⟩
          | ok keep =>
            rw [hk] at hp'
            cases hp'
  · rintro ⟨h, hh, h1, hb, hk⟩
    rw [pdProcessSheet_unfold, if_neg (by simp [h1]), hh]
    show (if (sheetBody s h).isEmpty
        then (.ok none : Except PdErr (Option (List Cell × DF)))
        else match pdKeep (sheetHeader s h) X with
          | .error e => .error e
          | .ok keep => .ok (some (pdBaseCols (sheetHeader s h) X,
              pdFragCore tmpl kws (sheetHeader s h) X
                ((sheetBody s h).filter keep) s.name))) = .error e
    rw [if_neg (by simp [hb]), hk]

theorem pdProcessSheet_eq_ok_some_iff {tmpl : Option (List Cell)}
    {kws : List (List Char)} {X : Nat} {s : Sheet} {p : List Cell × DF} :
    pdProcessSheet tmpl kws X s = .ok (some p) ↔
      ∃ h keep, sheetHeaderIdx s = some h ∧ s.padded.all rowAllNa = false ∧
        (sheetBody s h).isEmpty = false ∧
        pdKeep (sheetHeader s h) X = .ok keep ∧
        p = (pdBaseCols (sheetHeader s h) X,
          pdFragCore tmpl kws (sheetHeader s h) X
            ((sheetBody s h).filter keep) s.name) := by
  constructor
  · intro hp
    rw [pdProcessSheet_unfold] at hp
    by_cases h1 : s.padded.all rowAllNa
    · rw [if_pos h1] at hp
      cases hp
    · rw [if_neg h1] at hp
      cases hidx : sheetHeaderIdx s with
      | none =>
        rw [hidx] at hp
        cases hp
      | some h =>
        rw [hidx] at hp
        have hp' : (if (sheetBody s h).isEmpty
            then (.ok none : Except PdErr (Option (List Cell × DF)))
            else match pdKeep (sheetHeader s h) X with
              | .error e => .error e
              | .ok keep => .ok (some (pdBaseCols (sheetHeader s h) X,
                  pdFragCore tmpl kws (sheetHeader s h) X
                    ((sheetBody s h).filter keep) s.name))) = .ok (some p) := hp
        by_cases hb : (sheetBody s h).isEmpty
        · rw [if_pos hb] at hp'
          cases hp'
        · rw [if_neg hb] at hp'
          cases hk : pdKeep (sheetHeader s h) X with
          | error e' =>
            rw [hk] at hp'
            cases hp'
          | ok keep =>
            rw [hk] at hp'
            have hp'' : (Except.ok (some (pdBaseCols (sheetHeader s h) X,
                pdFragCore tmpl kws (sheetHeader s h) X
                  ((sheetBody s h).filter keep) s.name))
                  : Except PdErr (Option (List Cell × DF)))
                = .ok (some p) := hp'
            refine ⟨h, keep, rfl, by simpa using h1, by simpa using hb, hk, ?_⟩
            cases hp''
            rfl
  · rintro ⟨h, keep, hh, h1, hb, hk, rfl⟩
    rw [pdProcessSheet_unfold, if_neg (by simp [h1]), hh]
    show (if (sheetBody s h).isEmpty
        then (.ok none : Except PdErr (Option (List Cell × DF)))
        else match pdKeep (sheetHeader s h) X with
          | .error e => .error e
          | .ok keep => .ok (some (pdBaseCols (sheetHeader s h) X,
              pdFragCore tmpl kws (sheetHeader s h) X
                ((sheetBody s h).filter keep) s.name))) = _
    rw [if_neg (by simp [hb]), hk]

theorem pdRunSheets_unfold_cons (kws : List (List Char)) (X : Nat) (s : Sheet)
    (rest : List Sheet) (tmpl : Option (List Cell)) (acc : List DF) :
    pdRunSheets kws X (s :: rest) tmpl acc
      = (match pdProcessSheet tmpl kws X s with
        | .error e => .error e
        | .ok none => pdRunSheets kws X rest tmpl acc
        | .ok (some (labs, frag)) =>
          pdRunSheets kws X rest (some (tmpl.getD labs)) (acc ++ [frag])) :=
  rfl

theorem pdRunSheets_allskip (kws : List (List Char)) (X : Nat) :
    ∀ (sheets : List Sheet) (tmpl : Option (List Cell)) (acc : List DF),
      (∀ s ∈ sheets, sheetSkips s = true) →
      pdRunSheets kws X sheets tmpl acc = .ok (tmpl, acc) := by
  intro sheets
  induction sheets with
  | nil =>
    intro tmpl acc _
    rfl
  | cons s rest ih =>
    intro tmpl acc hall
    rw [pdRunSheets_unfold_cons]
    have hs : pdProcessSheet tmpl kws X s = .ok none :=
      pdProcessSheet_eq_ok_none_iff.mpr (hall s (List.mem_cons_self s rest))
    rw [hs]
    exact ih tmpl acc (fun u hu => hall u (List.mem_cons_of_mem s hu))

theorem pdRunSheets_some_tmpl (kws : List (List Char)) (X : Nat) :
    ∀ (sheets : List Sheet) (t : List Cell) (acc : List DF)
      (p : Option (List Cell) × List DF),
      pdRunSheets kws X sheets (some t) acc = .ok p → p.1 = some t := by
  intro sheets
  induction sheets with
  | nil =>
    intro t acc p hp
    have hp' : (.ok (some t, acc) : Except PdErr (Option (List Cell) × List DF))
        = .ok p := hp
    cases hp'
    rfl
  | cons s rest ih =>
    intro t acc p hp
    rw [pdRunSheets_unfold_cons] at hp
    cases hps : pdProcessSheet (some t) kws X s with
    | error e =>
      rw [hps] at hp
      have hp' : (.error e : Except PdErr (Option (List Cell) × List DF))
          = .ok p := hp
      cases hp'
    | ok o =>
      cases o with
      | none =>
        rw [hps] at hp
        exact ih t acc p hp
      | some q =>
        obtain ⟨labs, frag⟩ := q
        rw [hps] at hp
        exact ih t (acc ++ [frag]) p hp

theorem pdRunSheets_acc_suffix (kws : List (List Char)) (X : Nat) :
    ∀ (sheets : List Sheet) (tmpl : Option (List Cell)) (acc : List DF)
      (p : Option (List Cell) × List DF),
      pdRunSheets kws X sheets tmpl acc = .ok p →
      ∃ more, p.2 = acc ++ more := by
  intro sheets
  induction sheets with
  | nil =>
    intro tmpl acc p hp
    have hp' : (.ok (tmpl, acc) : Except PdErr (Option (List Cell) × List DF))
        = .ok p := hp
    cases hp'
    exact ⟨[], by simp⟩
  | cons s rest ih =>
    intro tmpl acc p hp
    rw [pdRunSheets_unfold_cons] at hp
    cases hps : pdProcessSheet tmpl kws X s with
    | error e =>
      rw [hps] at hp
      have hp' : (.error e : Except PdErr (Option (List Cell) × List DF))
          = .ok p := hp
      cases hp'
    | ok o =>
      cases o with
      | none =>
        rw [hps] at hp
        exact ih tmpl acc p hp
      | some q =>
        obtain ⟨labs, frag⟩ := q
        rw [hps] at hp
        obtain ⟨more, hmore⟩ := ih _ (acc ++ [frag]) p hp
        exact ⟨frag :: more, by rw [hmore, List.append_assoc]; rfl⟩

theorem pdRunSheets_from_none_none (kws : List (List Char)) (X : Nat) :
    ∀ (sheets : List Sheet) (acc acc' : List DF),
      pdRunSheets kws X sheets none acc = .ok (none, acc') →
      acc' = acc ∧ ∀ s ∈ sheets, sheetSkips s = true := by
  intro sheets
  induction sheets with
  | nil =>
    intro acc acc' hp
    have hp' : (.ok ((none : Option (List Cell)), acc)
        : Except PdErr (Option (List Cell) × List DF)) = .ok (none, acc') := hp
    have hpair := Except.ok.inj hp'
    have hacc : acc = acc' := congrArg Prod.snd hpair
    exact ⟨hacc.symm, by simp⟩
  | cons s rest ih =>
    intro acc acc' hp
    rw [pdRunSheets_unfold_cons] at hp
    cases hps : pdProcessSheet none kws X s with
    | error e =>
      rw [hps] at hp
      have hp' : (.error e : Except PdErr (Option (List Cell) × List DF))
          = .ok (none, acc') := hp
      cases hp'
    | ok o =>
      cases o with
      | none =>
        rw [hps] at hp
        obtain ⟨hacc, hall⟩ := ih acc acc' hp
        refine ⟨hacc, ?_⟩
        intro u hu
        rcases List.mem_cons.mp hu with rfl | hu'
        · exact pdProcessSheet_eq_ok_none_iff.mp hps
        · exact hall u hu'
      | some q =>
        obtain ⟨labs, frag⟩ := q
        rw [hps] at hp
        have hfst := pdRunSheets_some_tmpl kws X rest labs (acc ++ [frag])
          (none, acc') hp
        cases hfst

theorem pdRunSheets_from_none_some (kws : List (List Char)) (X : Nat) :
    ∀ (sheets : List Sheet) (acc : List DF) (t : List Cell) (fr : List DF),
      pdRunSheets kws X sheets none acc = .ok (some t, fr) →
      ∃ f more, fr = acc ++ f :: more := by
  intro sheets
  induction sheets with
  | nil =>
    intro acc t fr hp
    have hp' : (.ok ((none : Option (List Cell)), acc)
        : Except PdErr (Option (List Cell) × List DF)) = .ok (some t, fr) := hp
    have hpair := Except.ok.inj hp'
    have hfst : (none : Option (List Cell)) = some t := congrArg Prod.fst hpair
    cases hfst
  | cons s rest ih =>
    intro acc t fr hp
    rw [pdRunSheets_unfold_cons] at hp
    cases hps : pdProcessSheet none kws X s with
    | error e =>
      rw [hps] at hp
      have hp' : (.error e : Except PdErr (Option (List Cell) × List DF))
          = .ok (some t, fr) := hp
      cases hp'
    | ok o =>
      cases o with
      | none =>
        rw [hps] at hp
        exact ih acc t fr hp
      | some q =>
        obtain ⟨labs, frag⟩ := q
        rw [hps] at hp
        obtain ⟨more, hmore⟩ := pdRunSheets_acc_suffix kws X rest _
          (acc ++ [frag]) (some t, fr) hp
        have hmore' : fr = (acc ++ [frag]) ++ more := hmore
        exact ⟨frag, more, by rw [hmore', List.append_assoc]; rfl⟩

theorem process_file_pd_unfold (sheets : List Sheet) (X : Nat) (kwRaw : String) :
    process_file_pd sheets X kwRaw
      = (match pdRunSheets (cleanKeywords kwRaw) X sheets none [] with
        | .error e => .error e
        | .ok (_, []) => .ok none
        | .ok (none, _ :: _) => .ok none
        | .ok (some tmpl, f :: fs) =>
          match pdConcat (f :: fs) with
          | .error e => .error e
          | .ok cf => .ok (some (cf.selectKeys
              (tmpl ++ [Cell.str "TDS_Amount", Cell.str "LedgerName"])))) :=
  rfl

theorem process_file_pd_ok_none_iff (sheets : List Sheet) (X : Nat)
    (kwRaw : String) :
    process_file_pd sheets X kwRaw = .ok none
      ↔ ∀ s ∈ sheets, sheetSkips s = true := by
  constructor
  · intro hp
    rw [process_file_pd_unfold] at hp
    cases hr : pdRunSheets (cleanKeywords kwRaw) X sheets none [] with
    | error e =>
      rw [hr] at hp
      have hp' : (.error e : Except PdErr (Option DF)) = .ok none := hp
      cases hp'
    | ok q =>
      obtain ⟨tm, frags⟩ := q
      rw [hr] at hp
      cases tm with
      | none =>
        cases frags with
        | nil => exact (pdRunSheets_from_none_none _ _ sheets [] [] hr).2
        | cons f fs =>
          have hcontra := (pdRunSheets_from_none_none _ _ sheets [] (f :: fs) hr).1
          cases hcontra
      | some t =>
        cases frags with
        | nil =>
          obtain ⟨f, more, hcontra⟩ :=
            pdRunSheets_from_none_some _ _ sheets [] t [] hr
          cases hcontra
        | cons f fs =>
          have hp2 : (match pdConcat (f :: fs) with
              | .error e => (.error e : Except PdErr (Option DF))
              | .ok cf => .ok (some (cf.selectKeys
                  (t ++ [Cell.str "TDS_Amount", Cell.str "LedgerName"]))))
              = .ok none := hp
          cases hc : pdConcat (f :: fs) with
          | error e =>
            rw [hc] at hp2
            have hp' : (.error e : Except PdErr (Option DF)) = .ok none := hp2
            cases hp'
          | ok cf =>
            rw [hc] at hp2
            have hp' : (.ok (some (cf.selectKeys
                (t ++ [Cell.str "TDS_Amount", Cell.str "LedgerName"])))
                  : Except PdErr (Option DF)) = .ok none := hp2
            cases Except.ok.inj hp'
  · intro hall
    rw [process_file_pd_unfold,
      pdRunSheets_allskip (cleanKeywords kwRaw) X sheets none [] hall]

/-! ### Selection on pairwise-distinct labels -/

theorem range_filter_eq_single {n j : Nat} (hj : j < n) :
    (List.range n).filter (fun i => i = j) = [j] := by
  induction n with
  | zero => omega
  | succ m ih =>
    rw [List.range_succ, List.filter_append]
    by_cases hjm : j < m
    · rw [ih hjm, List.filter_cons_of_neg (by simp; omega)]
      rfl
    · have hjem : j = m := by omega
      subst hjem
      have h1 : (List.range j).filter (fun i => i = j) = [] := by
        rw [List.filter_eq_nil_iff]
        intro a ha
        have hlt : a < j := List.mem_range.mp ha
        simp
        omega
      rw [h1]
      simp

theorem labelPositions_of_nodup {cols : List Cell} (hnd : cols.Nodup)
    {j : Nat} (hj : j < cols.length) :
    labelPositions cols (cols.getD j Cell.na) = [j] := by
  unfold labelPositions
  have hcongr : ∀ i ∈ List.range cols.length,
      (decide (cols.getD i Cell.na = cols.getD j Cell.na)) = (decide (i = j)) := by
    intro i hi
    have hil : i < cols.length := List.mem_range.mp hi
    rw [decide_eq_decide, List.getD_eq_getElem _ _ hil, List.getD_eq_getElem _ _ hj]
    constructor
    · intro hcc
      have hcc' : cols.get ⟨i, hil⟩ = cols.get ⟨j, hj⟩ := hcc
      exact congrArg Fin.val ((List.Nodup.get_inj_iff hnd).mp hcc')
    · intro hij
      subst hij
      rfl
  rw [List.filter_congr hcongr]
  exact range_filter_eq_single hj

theorem labelPositions_singleton {cols : List Cell} (hnd : cols.Nodup) {k : Cell}
    (hk : k ∈ cols) :
    ∃ j, idxOfLabel k cols = some j ∧ labelPositions cols k = [j] ∧
      cols.getD j Cell.na = k := by
  obtain ⟨j, hj⟩ := idxOfLabel_isSome_of_mem hk
  have hjl := idxOfLabel_lt_length hj
  have hjk : cols.getD j Cell.na = k := by
    have hg := idxOfLabel_get hj
    rw [List.get?_eq_getElem?, List.getElem?_eq_getElem hjl] at hg
    rw [List.getD_eq_getElem _ _ hjl]
    exact Option.some.inj hg
  exact ⟨j, hj, by rw [← hjk]; exact labelPositions_of_nodup hnd hjl, hjk⟩

theorem gather_select_eq_reconcile {cols : List Cell} (hnd : cols.Nodup) :
    ∀ {keys : List Cell}, (∀ k ∈ keys, k ∈ cols) → ∀ (r : List Cell),
      gatherRow (selectPositions cols keys) r = reconcileRow keys cols r := by
  intro keys
  induction keys with
  | nil => intro _ r; rfl
  | cons k ks ih =>
    intro hin r
    obtain ⟨j, hjidx, hjpos, _⟩ :=
      labelPositions_singleton hnd (hin k (List.mem_cons_self k ks))
    rw [selectPositions_cons, hjpos]
    show r.getD j Cell.na :: gatherRow (selectPositions cols ks) r = _
    rw [ih (fun k' h' => hin k' (List.mem_cons_of_mem _ h')) r]
    rw [show reconcileRow (k :: ks) cols r
      = (match idxOfLabel k cols with
        | some i => r.getD i Cell.na
        | none => Cell.na) :: reconcileRow ks cols r from rfl, hjidx]

theorem reconcileRow_labels_self {cols keys : List Cell} (hnd : cols.Nodup)
    (hin : ∀ k ∈ keys, k ∈ cols) :
    reconcileRow keys cols cols = keys := by
  unfold reconcileRow
  have hcongr : ∀ k ∈ keys, (match idxOfLabel k cols with
      | some i => cols.getD i Cell.na
      | none => Cell.na) = k := by
    intro k hk
    obtain ⟨j, hjidx, _, hjval⟩ := labelPositions_singleton hnd (hin k hk)
    rw [hjidx]
    exact hjval
  rw [List.map_congr_left hcongr]
  simp

theorem selectKeys_of_nodup {df : DF} {keys : List Cell} (hnd : df.cols.Nodup)
    (hin : ∀ k ∈ keys, k ∈ df.cols) :
    df.selectKeys keys = ⟨keys, df.rows.map (reconcileRow keys df.cols)⟩ := by
  unfold DF.selectKeys
  congr 1
  · rw [gather_select_eq_reconcile hnd hin df.cols]
    exact reconcileRow_labels_self hnd hin
  · apply List.map_congr_left
    intro r _
    exact gather_select_eq_reconcile hnd hin r

theorem take_min_eq (r : List Cell) (X : Nat) :
    r.take (min X r.length) = r.take X := by
  by_cases h : X ≤ r.length
  · rw [Nat.min_eq_left h]
  · have hlen : r.length ≤ X := by omega
    rw [Nat.min_eq_right hlen, List.take_length, List.take_of_length_le hlen]

theorem take_eq_map_range (header : List Cell) (X : Nat) :
    header.take X
      = (List.range (min X header.length)).map (fun i => header.getD i Cell.na) := by
  apply List.ext_getElem (by simp)
  intro n h1 h2
  have hn : n < min X header.length := by simpa using h1
  rw [List.getElem_take, List.getElem_map, List.getElem_range,
    List.getD_eq_getElem _ _ (by omega)]

theorem selectPositions_map_getD {cols : List Cell} (hnd : cols.Nodup) :
    ∀ {is : List Nat}, (∀ i ∈ is, i < cols.length) →
      selectPositions cols (is.map (fun i => cols.getD i Cell.na)) = is := by
  intro is
  induction is with
  | nil => intro _; rfl
  | cons i it ih =>
    intro his
    rw [List.map_cons, selectPositions_cons,
      labelPositions_of_nodup hnd (his i (List.mem_cons_self i it)),
      ih (fun i' h' => his i' (List.mem_cons_of_mem _ h'))]
    rfl

theorem pdSlicePs_of_nodup {header : List Cell} (hnd : header.Nodup) (X : Nat) :
    pdSlicePs header X = List.range (min X header.length) := by
  unfold pdSlicePs sliceKeys
  rw [take_eq_map_range]
  apply selectPositions_map_getD hnd
  intro i hi
  have := List.mem_range.mp hi
  omega

theorem tdsColIdxs_lt {header : List Cell} {kws : List (List Char)} {j : Nat}
    (hj : j ∈ tdsColIdxs header kws) : j < header.length := by
  unfold tdsColIdxs at hj
  exact List.mem_range.mp (List.mem_of_mem_filter hj)

theorem pdTdsPositions_of_nodup {header : List Cell} {kws : List (List Char)}
    (hnd : header.Nodup) :
    pdTdsPositions header kws = tdsColIdxs header kws := by
  unfold pdTdsPositions tdsLabels
  exact selectPositions_map_getD hnd (fun j hj => tdsColIdxs_lt hj)

theorem replicate_getD (m i : Nat) :
    (List.replicate m Cell.na).getD i Cell.na = Cell.na := by
  by_cases h : i < m
  · rw [List.getD_eq_getElem _ _ (by simpa using h)]
    exact List.getElem_replicate ..
  · rw [List.getD_eq_default]
    simpa using h

theorem appendMissing_spec : ∀ {t : List Cell}, t.Nodup → ∀ (df : DF),
    appendMissing t df
      = ⟨df.cols ++ t.filter (fun x => decide (x ∉ df.cols)),
        df.rows.map (fun r =>
          r ++ List.replicate (t.filter (fun x => decide (x ∉ df.cols))).length
            Cell.na)⟩ := by
  intro t
  induction t with
  | nil =>
    intro _ df
    simp [appendMissing]
  | cons a t' ih =>
    intro hnd df
    have hnd' : t'.Nodup := (List.nodup_cons.mp hnd).2
    have hna : a ∉ t' := (List.nodup_cons.mp hnd).1
    show appendMissing t' (if a ∈ df.cols then df
      else ⟨df.cols ++ [a], df.rows.map (fun r => r ++ [Cell.na])⟩) = _
    by_cases h : a ∈ df.cols
    · rw [if_pos h, ih hnd' df]
      rw [List.filter_cons_of_neg (by simp [h])]
    · rw [if_neg h, ih hnd' ⟨df.cols ++ [a], df.rows.map (fun r => r ++ [Cell.na])⟩]
      have hfil : t'.filter (fun x => decide (x ∉ df.cols ++ [a]))
          = t'.filter (fun x => decide (x ∉ df.cols)) := by
        apply List.filter_congr
        intro x hx
        rw [decide_eq_decide]
        have hxa : x ≠ a := fun hxa => hna (hxa ▸ hx)
        simp [hxa]
      have hfcons : (a :: t').filter (fun x => decide (x ∉ df.cols))
          = a :: t'.filter (fun x => decide (x ∉ df.cols)) := by
        rw [List.filter_cons_of_pos (by simp [h])]
      rw [hfil, hfcons]
      congr 1
      · rw [List.append_assoc]
        rfl
      · rw [List.map_map]
        apply List.map_congr_left
        intro r _
        show (r ++ [Cell.na]) ++ List.replicate
            (t'.filter (fun x => decide (x ∉ df.cols))).length Cell.na = _
        rw [List.append_assoc]
        congr 1

theorem reconcileRow_append_pad {t bcols ms r : List Cell}
    (hlen : r.length = bcols.length) :
    reconcileRow t (bcols ++ ms) (r ++ List.replicate ms.length Cell.na)
      = reconcileRow t bcols r := by
  unfold reconcileRow
  apply List.map_congr_left
  intro k _
  cases hidx : idxOfLabel k bcols with
  | some j =>
    rw [show idxOfLabel k (bcols ++ ms) = some j from firstIdx_append_left hidx]
    show (r ++ List.replicate ms.length Cell.na).getD j Cell.na = r.getD j Cell.na
    have hjl : j < bcols.length := idxOfLabel_lt_length hidx
    rw [List.getD_append _ _ _ _ (by omega)]
  | none =>
    have h2 : idxOfLabel k (bcols ++ ms) = (idxOfLabel k ms).map (· + bcols.length) :=
      firstIdx_append_none hidx
    rw [h2]
    cases hms : idxOfLabel k ms with
    | none => rfl
    | some i =>
      simp only [Option.map_some']
      show (r ++ List.replicate ms.length Cell.na).getD (i + bcols.length) Cell.na
        = Cell.na
      have hi : i < ms.length := idxOfLabel_lt_length hms
      rw [List.getD_append_right _ _ _ _ (by omega)]
      have hidxeq : i + bcols.length - r.length = i := by omega
      rw [hidxeq]
      exact replicate_getD ms.length i

theorem reconcileFrame_of_nodup {t : List Cell} {df : DF} (hT : t.Nodup)
    (hB : df.cols.Nodup) (hrect : ∀ r ∈ df.rows, r.length = df.cols.length) :
    reconcileFrame t df = ⟨t, df.rows.map (reconcileRow t df.cols)⟩ := by
  rw [reconcileFrame, appendMissing_spec hT df]
  have hnd2 : (df.cols ++ t.filter (fun x => decide (x ∉ df.cols))).Nodup := by
    rw [List.nodup_append]
    refine ⟨hB, List.Nodup.filter _ hT, ?_⟩
    intro x hx hxm
    have hmem := List.mem_filter.mp hxm
    have hnot : x ∉ df.cols := by simpa using hmem.2
    exact hnot hx
  have hin : ∀ k ∈ t, k ∈ df.cols ++ t.filter (fun x => decide (x ∉ df.cols)) := by
    intro k hk
    by_cases h : k ∈ df.cols
    · exact List.mem_append_left _ h
    · exact List.mem_append_right _ (List.mem_filter.mpr ⟨hk, by simpa using h⟩)
  rw [selectKeys_of_nodup hnd2 hin]
  congr 1
  rw [List.map_map]
  apply List.map_congr_left
  intro r hr
  show reconcileRow t (df.cols ++ t.filter (fun x => decide (x ∉ df.cols)))
      (r ++ List.replicate (t.filter (fun x => decide (x ∉ df.cols))).length Cell.na)
    = reconcileRow t df.cols r
  exact reconcileRow_append_pad (hrect r hr)

/-! ### The two layers coincide on pairwise-distinct labels -/

theorem gather_range_take (r : List Cell) (n : Nat) (hn : n ≤ r.length) :
    gatherRow (List.range n) r = r.take n := by
  unfold gatherRow
  apply List.ext_getElem (by simp; omega)
  intro i h1 h2
  have hi : i < n := by simpa using h1
  rw [List.getElem_map, List.getElem_range, List.getElem_take,
    List.getD_eq_getElem _ _ (by omega)]

theorem pdBaseCols_of_nodup {header : List Cell} (hnd : header.Nodup) (X : Nat) :
    pdBaseCols header X = sliceLabels header X := by
  unfold pdBaseCols
  rw [pdSlicePs_of_nodup hnd, gather_range_take header _ (Nat.min_le_right _ _),
    take_min_eq]
  unfold sliceKeys sliceLabels renameLast renameCols
  rfl

theorem pdKeep_unfold (header : List Cell) (X : Nat) :
    pdKeep header X
      = (match particularsLabel (pdBaseCols header X) with
        | none => Except.ok (fun _ => true)
        | some lab =>
          match labelPositions (pdBaseCols header X) lab with
          | [j] => Except.ok (fun r =>
              !containsSub "grand total".data
                (lowerChars ((r.getD ((pdSlicePs header X).getD j 0) Cell.na).chars)))
          | _ => Except.error PdErr.attrError) := rfl

theorem pdKeep_none_label {header : List Cell} {X : Nat}
    (hlab : particularsLabel (pdBaseCols header X) = none) :
    pdKeep header X = .ok (fun _ => true) := by
  have h0 := pdKeep_unfold header X
  rw [hlab] at h0
  exact h0

theorem pdKeep_one_pos {header : List Cell} {X : Nat} {lab : Cell} {j : Nat}
    (hlab : particularsLabel (pdBaseCols header X) = some lab)
    (hone : labelPositions (pdBaseCols header X) lab = [j]) :
    pdKeep header X = .ok (fun r =>
      !containsSub "grand total".data
        (lowerChars ((r.getD ((pdSlicePs header X).getD j 0) Cell.na).chars))) := by
  have h0 := pdKeep_unfold header X
  rw [hlab] at h0
  have h1 : pdKeep header X
      = (match labelPositions (pdBaseCols header X) lab with
        | [j0] => Except.ok (fun r =>
            !containsSub "grand total".data
              (lowerChars ((r.getD ((pdSlicePs header X).getD j0 0) Cell.na).chars)))
        | _ => Except.error PdErr.attrError) := h0
  rw [hone] at h1
  exact h1

theorem pdKeep_err_pos {header : List Cell} {X : Nat} {lab : Cell}
    (hlab : particularsLabel (pdBaseCols header X) = some lab)
    (hlen : (labelPositions (pdBaseCols header X) lab).length ≠ 1) :
    pdKeep header X = .error .attrError := by
  have h0 := pdKeep_unfold header X
  rw [hlab] at h0
  have h1 : pdKeep header X
      = (match labelPositions (pdBaseCols header X) lab with
        | [j0] => Except.ok (fun r =>
            !containsSub "grand total".data
              (lowerChars ((r.getD ((pdSlicePs header X).getD j0 0) Cell.na).chars)))
        | _ => Except.error PdErr.attrError) := h0
  cases hlp : labelPositions (pdBaseCols header X) lab with
  | nil =>
    rw [hlp] at h1
    exact h1
  | cons a t =>
    cases t with
    | nil =>
      exfalso
      apply hlen
      rw [hlp]
      rfl
    | cons b t2 =>
      rw [hlp] at h1
      exact h1

theorem pdKeep_of_nodup {header : List Cell} (hnd : header.Nodup) {X : Nat}
    (hnd2 : (sliceLabels header X).Nodup) :
    pdKeep header X = .ok (keepRow (particularsIdx (sliceLabels header X))) := by
  cases hpi : particularsIdx (sliceLabels header X) with
  | none =>
    have hlab : particularsLabel (pdBaseCols header X) = none := by
      unfold particularsLabel
      rw [pdBaseCols_of_nodup hnd, show firstIdx
          (fun c => containsSub "particular".data (lowerChars c.chars))
          (sliceLabels header X) = none from hpi]
      rfl
    rw [pdKeep_none_label hlab]
    rfl
  | some j =>
    have hj : firstIdx (fun c => containsSub "particular".data (lowerChars c.chars))
        (sliceLabels header X) = some j := hpi
    have hjl : j < (sliceLabels header X).length := firstIdx_lt_length hj
    have hlab : particularsLabel (pdBaseCols header X)
        = some ((sliceLabels header X).getD j Cell.na) := by
      unfold particularsLabel
      rw [pdBaseCols_of_nodup hnd, hj]
      rfl
    have hone : labelPositions (pdBaseCols header X)
        ((sliceLabels header X).getD j Cell.na) = [j] := by
      rw [pdBaseCols_of_nodup hnd]
      exact labelPositions_of_nodup hnd2 hjl
    have hps : (pdSlicePs header X).getD j 0 = j := by
      rw [pdSlicePs_of_nodup hnd]
      have hjm : j < min X header.length := by
        rw [sliceLabels_length] at hjl
        exact hjl
      rw [List.getD_eq_getElem _ _ (by simpa using hjm), List.getElem_range]
    rw [pdKeep_one_pos hlab hone, hps]
    rfl

theorem pdFragCore_of_nodup {tmpl : Option (List Cell)} {kws : List (List Char)}
    {X : Nat} {s : Sheet} {h : Nat}
    (hh : sheetHeaderIdx s = some h) (hnd : (sheetHeader s h).Nodup)
    (hnd2 : (sliceLabels (sheetHeader s h) X).Nodup)
    (hT : ∀ t, tmpl = some t → t.Nodup) :
    pdFragCore tmpl kws (sheetHeader s h) X (sheetKept s h X) s.name
      = mkFragment tmpl kws X s h := by
  have hlen : (sheetHeader s h).length = gridWidth s.grid := sheetHeader_length hh
  have hbase : (sheetKept s h X).map (gatherRow (pdSlicePs (sheetHeader s h) X))
      = (sheetKept s h X).map (fun r => r.take X) := by
    apply List.map_congr_left
    intro r hr
    have hr1 : r.length = gridWidth s.grid := sheetKept_row_length hr
    rw [pdSlicePs_of_nodup hnd,
      gather_range_take r _ (by rw [hr1, ← hlen]; exact Nat.min_le_right _ _),
      show min X (sheetHeader s h).length = min X r.length by rw [hlen, hr1],
      take_min_eq]
  have hvals : (if (tdsColIdxs (sheetHeader s h) kws).isEmpty
      then (sheetKept s h X).map (fun _ => Cell.na)
      else (sheetKept s h X).map
        (fun r => Cell.num (pdTdsSum (sheetHeader s h) kws r)))
      = (if (tdsColIdxs (sheetHeader s h) kws).isEmpty
        then (sheetKept s h X).map (fun _ => Cell.na)
        else (sheetKept s h X).map
          (fun r => Cell.num (tdsRowSum (tdsColIdxs (sheetHeader s h) kws) r))) := by
    by_cases hc : (tdsColIdxs (sheetHeader s h) kws).isEmpty
    · rw [if_pos hc, if_pos hc]
    · rw [if_neg hc, if_neg hc]
      apply List.map_congr_left
      intro r _
      unfold pdTdsSum
      rw [pdTdsPositions_of_nodup hnd]
  cases tmpl with
  | none =>
    rw [pdFragCore_def_none, mkFragment_def_none, pdBaseCols_of_nodup hnd,
      hbase, hvals]
  | some t =>
    have htnd := hT t rfl
    rw [pdFragCore_def_some, mkFragment_def_some, hvals]
    have hrec : reconcileFrame t (DF.mk (pdBaseCols (sheetHeader s h) X)
        ((sheetKept s h X).map (gatherRow (pdSlicePs (sheetHeader s h) X))))
        = DF.mk t ((sheetKept s h X).map
            (fun r => reconcileRow t (sliceLabels (sheetHeader s h) X) (r.take X))) := by
      have hBnd : (DF.mk (pdBaseCols (sheetHeader s h) X)
          ((sheetKept s h X).map (gatherRow (pdSlicePs (sheetHeader s h) X)))).cols.Nodup := by
        show (pdBaseCols (sheetHeader s h) X).Nodup
        rw [pdBaseCols_of_nodup hnd]
        exact hnd2
      have hBrect : ∀ r ∈ (DF.mk (pdBaseCols (sheetHeader s h) X)
          ((sheetKept s h X).map (gatherRow (pdSlicePs (sheetHeader s h) X)))).rows,
          r.length = (DF.mk (pdBaseCols (sheetHeader s h) X)
            ((sheetKept s h X).map (gatherRow (pdSlicePs (sheetHeader s h) X)))).cols.length := by
        intro r hr
        obtain ⟨r0, _, rfl⟩ := List.mem_map.mp hr
        show (gatherRow _ r0).length = (pdBaseCols (sheetHeader s h) X).length
        rw [gatherRow_length, pdBaseCols_length]
      rw [reconcileFrame_of_nodup htnd hBnd hBrect]
      congr 1
      show ((sheetKept s h X).map (gatherRow (pdSlicePs (sheetHeader s h) X))).map
          (reconcileRow t (pdBaseCols (sheetHeader s h) X)) = _
      rw [hbase, List.map_map]
      apply List.map_congr_left
      intro r _
      show reconcileRow t (pdBaseCols (sheetHeader s h) X) (r.take X) = _
      rw [pdBaseCols_of_nodup hnd]
    rw [hrec]

theorem pdProcessSheet_of_wellLabeled {tmpl : Option (List Cell)}
    {kws : List (List Char)} {X : Nat} {s : Sheet}
    (hw : wellLabeled X s = true) (hT : ∀ t, tmpl = some t → t.Nodup) :
    pdProcessSheet tmpl kws X s = .ok (processSheet tmpl kws X s) := by
  by_cases hsk : sheetSkips s = true
  · rw [processSheet_eq_none_iff.mpr hsk]
    exact pdProcessSheet_eq_ok_none_iff.mpr hsk
  · have h1 : s.padded.all rowAllNa = false := by
      cases hall : s.padded.all rowAllNa with
      | false => rfl
      | true =>
        exfalso
        apply hsk
        unfold sheetSkips
        rw [hall]
        rfl
    cases hidx : sheetHeaderIdx s with
    | none =>
      exfalso
      apply hsk
      unfold sheetSkips
      rw [hidx]
      simp
    | some h =>
      have hb : (sheetBody s h).isEmpty = false := by
        cases hbe : (sheetBody s h).isEmpty with
        | false => rfl
        | true =>
          exfalso
          apply hsk
          unfold sheetSkips
          rw [hidx]
          show (s.padded.all rowAllNa || (sheetBody s h).isEmpty) = true
          rw [hbe, Bool.or_true]
      have hw' := hw
      unfold wellLabeled at hw'
      rw [hidx] at hw'
      have hnd : (sheetHeader s h).Nodup := by
        have := (Bool.and_eq_true _ _).mp hw'
        exact of_decide_eq_true this.1
      have hnd2 : (sliceLabels (sheetHeader s h) X).Nodup := by
        have := (Bool.and_eq_true _ _).mp hw'
        exact of_decide_eq_true this.2
      have hold : processSheet tmpl kws X s
          = some (sliceLabels (sheetHeader s h) X, mkFragment tmpl kws X s h) :=
        processSheet_eq_some_iff.mpr ⟨h, hidx, h1, hb, rfl⟩
      rw [hold]
      apply pdProcessSheet_eq_ok_some_iff.mpr
      refine ⟨h, keepRow (particularsIdx (sliceLabels (sheetHeader s h) X)),
        hidx, h1, hb, pdKeep_of_nodup hnd hnd2, ?_⟩
      rw [pdBaseCols_of_nodup hnd]
      have hcore : pdFragCore tmpl kws (sheetHeader s h) X
          ((sheetBody s h).filter
            (keepRow (particularsIdx (sliceLabels (sheetHeader s h) X)))) s.name
          = mkFragment tmpl kws X s h :=
        pdFragCore_of_nodup hidx hnd hnd2 hT
      rw [hcore]

theorem pdRunSheets_of_wellLabeled (kws : List (List Char)) (X : Nat) :
    ∀ (sheets : List Sheet), (∀ s ∈ sheets, wellLabeled X s = true) →
      ∀ (tmpl : Option (List Cell)), (∀ t, tmpl = some t → t.Nodup) →
        ∀ (acc : List DF),
          pdRunSheets kws X sheets tmpl acc
            = .ok (runSheets kws X sheets tmpl acc) := by
  intro sheets
  induction sheets with
  | nil =>
    intro _ tmpl _ acc
    rfl
  | cons s rest ih =>
    intro hw tmpl hT acc
    have hwc := hw s (List.mem_cons_self s rest)
    have hwrest : ∀ u ∈ rest, wellLabeled X u = true :=
      fun u hu => hw u (List.mem_cons_of_mem s hu)
    rw [pdRunSheets_unfold_cons, pdProcessSheet_of_wellLabeled hwc hT]
    cases hps : processSheet tmpl kws X s with
    | none =>
      have hrs : runSheets kws X (s :: rest) tmpl acc
          = runSheets kws X rest tmpl acc := by
        show (match processSheet tmpl kws X s with
          | none => runSheets kws X rest tmpl acc
          | some (labs, frag) =>
            runSheets kws X rest (some (tmpl.getD labs)) (acc ++ [frag])) = _
        rw [hps]
      rw [hrs]
      exact ih hwrest tmpl hT acc
    | some p =>
      obtain ⟨labs, frag⟩ := p
      have hrs : runSheets kws X (s :: rest) tmpl acc
          = runSheets kws X rest (some (tmpl.getD labs)) (acc ++ [frag]) := by
        show (match processSheet tmpl kws X s with
          | none => runSheets kws X rest tmpl acc
          | some (labs, frag) =>
            runSheets kws X rest (some (tmpl.getD labs)) (acc ++ [frag])) = _
        rw [hps]
      rw [hrs]
      apply ih hwrest (some (tmpl.getD labs)) ?_ (acc ++ [frag])
      intro t' ht'
      have ht'' : tmpl.getD labs = t' := Option.some.inj ht'
      cases tmpl with
      | some t0 =>
        have : t0 = t' := ht''
        rw [← this]
        exact hT t0 rfl
      | none =>
        have hlabs0 : labs = t' := ht''
        obtain ⟨h, hidx, _, _, hpe⟩ := processSheet_eq_some_iff.mp hps
        have hlabs2 : labs = sliceLabels (sheetHeader s h) X :=
          congrArg Prod.fst hpe
        have hw' := hwc
        unfold wellLabeled at hw'
        rw [hidx] at hw'
        have hnd2 : (sliceLabels (sheetHeader s h) X).Nodup :=
          of_decide_eq_true ((Bool.and_eq_true _ _).mp hw').2
        rw [← hlabs0, hlabs2]
        exact hnd2

theorem setCol_cols_ite (df : DF) (lab : Cell) (vals : List Cell) :
    (df.setCol lab vals).cols
      = if lab ∈ df.cols then df.cols else df.cols ++ [lab] := by
  by_cases h : lab ∈ df.cols
  · rw [if_pos h, setCol_cols_of_mem h]
  · rw [if_neg h, setCol_cols_of_not_mem h]

theorem mkFragment_cols_some (t : List Cell) (kws : List (List Char)) (X : Nat)
    (s : Sheet) (h : Nat) :
    (mkFragment (some t) kws X s h).cols = fragColsOf t := by
  rw [mkFragment_def_some, setCol_cols_ite, setCol_cols_ite]
  rfl

theorem mkFragment_cols_none (kws : List (List Char)) (X : Nat)
    (s : Sheet) (h : Nat) :
    (mkFragment none kws X s h).cols
      = fragColsOf (sliceLabels (sheetHeader s h) X) := by
  rw [mkFragment_def_none, setCol_cols_ite, setCol_cols_ite]
  rfl

theorem fragColsOf_spec (t : List Cell) :
    (∀ c ∈ t, c ∈ fragColsOf t) ∧ Cell.str "TDS_Amount" ∈ fragColsOf t ∧
      Cell.str "LedgerName" ∈ fragColsOf t ∧
      (t.Nodup → (fragColsOf t).Nodup) := by
  unfold fragColsOf
  by_cases h1 : Cell.str "TDS_Amount" ∈ t
  · rw [if_pos h1]
    by_cases h2 : Cell.str "LedgerName" ∈ t
    · rw [if_pos h2]
      exact ⟨fun c hc => hc, h1, h2, fun hnd => hnd⟩
    · rw [if_neg h2]
      refine ⟨fun c hc => List.mem_append_left _ hc,
        List.mem_append_left _ h1,
        List.mem_append_right _ (List.mem_singleton.mpr rfl), ?_⟩
      intro hnd
      rw [List.nodup_append]
      refine ⟨hnd, by simp, ?_⟩
      intro x hx hx2
      rw [List.mem_singleton.mp hx2] at hx
      exact h2 hx
  · rw [if_neg h1]
    by_cases h2 : Cell.str "LedgerName" ∈ t ++ [Cell.str "TDS_Amount"]
    · rw [if_pos h2]
      refine ⟨fun c hc => List.mem_append_left _ hc,
        List.mem_append_right _ (List.mem_singleton.mpr rfl), h2, ?_⟩
      intro hnd
      rw [List.nodup_append]
      refine ⟨hnd, by simp, ?_⟩
      intro x hx hx2
      rw [List.mem_singleton.mp hx2] at hx
      exact h1 hx
    · rw [if_neg h2]
      refine ⟨fun c hc => List.mem_append_left _ (List.mem_append_left _ hc),
        List.mem_append_left _
          (List.mem_append_right _ (List.mem_singleton.mpr rfl)),
        List.mem_append_right _ (List.mem_singleton.mpr rfl), ?_⟩
      intro hnd
      rw [List.nodup_append]
      refine ⟨?_, by simp, ?_⟩
      · rw [List.nodup_append]
        refine ⟨hnd, by simp, ?_⟩
        intro x hx hx2
        rw [List.mem_singleton.mp hx2] at hx
        exact h1 hx
      · intro x hx hx2
        rw [List.mem_singleton.mp hx2] at hx
        exact h2 hx

theorem process_file_pd_eq (sheets : List Sheet) (X : Nat) (kwRaw : String)
    (hw : ∀ s ∈ sheets, wellLabeled X s = true) :
    process_file_pd sheets X kwRaw = .ok (process_file sheets X kwRaw) := by
  rw [process_file_pd_unfold,
    pdRunSheets_of_wellLabeled (cleanKeywords kwRaw) X sheets hw none
      (fun t ht => by cases ht) []]
  rcases runSheets_from_none (cleanKeywords kwRaw) X sheets [] with ⟨hrun, _⟩ |
    ⟨pre, s, rest, labs, frag, heq, hpre, hps, hrun⟩
  · rw [hrun]
    have hpf : process_file sheets X kwRaw = none := by
      have hstep : process_file sheets X kwRaw
          = (match runSheets (cleanKeywords kwRaw) X sheets none [] with
            | (_, []) => none
            | (none, _ :: _) => none
            | (some tmpl, f :: fs) => some (selectCols (concatFrames (f :: fs))
                (tmpl ++ [Cell.str "TDS_Amount", Cell.str "LedgerName"]))) := rfl
      rw [hstep, hrun]
    rw [hpf]
  · rw [List.nil_append] at hrun
    rw [hrun]
    obtain ⟨h, hidx, _, _, hpe⟩ := processSheet_eq_some_iff.mp hps
    have hsmem : s ∈ sheets := by
      rw [heq]
      exact List.mem_append_right _ (List.mem_cons_self s rest)
    have hw' := hw s hsmem
    unfold wellLabeled at hw'
    rw [hidx] at hw'
    have hnd2 : (sliceLabels (sheetHeader s h) X).Nodup :=
      of_decide_eq_true ((Bool.and_eq_true _ _).mp hw').2
    have hlabseq : labs = sliceLabels (sheetHeader s h) X := congrArg Prod.fst hpe
    have hlnd : labs.Nodup := by
      rw [hlabseq]
      exact hnd2
    have hfragcols : frag.cols = fragColsOf labs := by
      have hfr : frag = mkFragment none (cleanKeywords kwRaw) X s h :=
        congrArg Prod.snd hpe
      rw [hfr, mkFragment_cols_none, ← hlabseq]
    have htailcols : ∀ g ∈ tailFrags (cleanKeywords kwRaw) X labs rest,
        g.cols = fragColsOf labs := by
      intro g hg
      obtain ⟨s', h', hidx', _, hgeq⟩ := tailFrags_mem hg
      rw [hgeq, mkFragment_cols_some]
    have hall2 : (tailFrags (cleanKeywords kwRaw) X labs rest).all
        (fun g => g.cols = frag.cols) = true := by
      rw [List.all_eq_true]
      intro g hg
      exact decide_eq_true (by rw [htailcols g hg, hfragcols])
    have hconcat : pdConcat (frag :: tailFrags (cleanKeywords kwRaw) X labs rest)
        = .ok (concatFrames (frag :: tailFrags (cleanKeywords kwRaw) X labs rest)) := by
      show (if (tailFrags (cleanKeywords kwRaw) X labs rest).all
            (fun g => g.cols = frag.cols)
          then Except.ok (DF.mk frag.cols
            (((frag :: tailFrags (cleanKeywords kwRaw) X labs rest).map
              DF.rows).flatten))
          else Except.error PdErr.concatError)
        = Except.ok (concatFrames (frag :: tailFrags (cleanKeywords kwRaw) X labs rest))
      rw [if_pos hall2]
      rfl
    show (match pdConcat (frag :: tailFrags (cleanKeywords kwRaw) X labs rest) with
      | .error e => (Except.error e : Except PdErr (Option DF))
      | .ok cf => Except.ok (some (cf.selectKeys
          (labs ++ [Cell.str "TDS_Amount", Cell.str "LedgerName"]))))
      = .ok (process_file sheets X kwRaw)
    rw [hconcat]
    have hpf : process_file sheets X kwRaw
        = some (selectCols
            (concatFrames (frag :: tailFrags (cleanKeywords kwRaw) X labs rest))
            (labs ++ [Cell.str "TDS_Amount", Cell.str "LedgerName"])) := by
      have hstep : process_file sheets X kwRaw
          = (match runSheets (cleanKeywords kwRaw) X sheets none [] with
            | (_, []) => none
            | (none, _ :: _) => none
            | (some tmpl, f :: fs) => some (selectCols (concatFrames (f :: fs))
                (tmpl ++ [Cell.str "TDS_Amount", Cell.str "LedgerName"]))) := rfl
      rw [hstep, hrun]
    rw [hpf]
    have hcfc : (concatFrames
        (frag :: tailFrags (cleanKeywords kwRaw) X labs rest)).cols
        = fragColsOf labs := hfragcols
    obtain ⟨hself, htds, hln, hndf⟩ := fragColsOf_spec labs
    have hndcols : (concatFrames
        (frag :: tailFrags (cleanKeywords kwRaw) X labs rest)).cols.Nodup := by
      rw [hcfc]
      exact hndf hlnd
    have hkeys : ∀ k ∈ labs ++ [Cell.str "TDS_Amount", Cell.str "LedgerName"],
        k ∈ (concatFrames (frag :: tailFrags (cleanKeywords kwRaw) X labs rest)).cols := by
      intro k hk
      rw [hcfc]
      rcases List.mem_append.mp hk with hk1 | hk2
      · exact hself k hk1
      · rcases List.mem_cons.mp hk2 with rfl | hk3
        · exact htds
        · rw [List.mem_singleton.mp hk3]
          exact hln
    show Except.ok (some ((concatFrames
        (frag :: tailFrags (cleanKeywords kwRaw) X labs rest)).selectKeys
          (labs ++ [Cell.str "TDS_Amount", Cell.str "LedgerName"])))
      = Except.ok (some (selectCols
          (concatFrames (frag :: tailFrags (cleanKeywords kwRaw) X labs rest))
          (labs ++ [Cell.str "TDS_Amount", Cell.str "LedgerName"])))
    rw [selectKeys_of_nodup hndcols hkeys]
    rfl

theorem pdLockedTemplate_eq (sheets : List Sheet) (X : Nat) (kwRaw : String)
    (hw : ∀ s ∈ sheets, wellLabeled X s = true) :
    pdLockedTemplate sheets X kwRaw = .ok (lockedTemplate sheets X kwRaw) := by
  unfold pdLockedTemplate lockedTemplate
  rw [pdRunSheets_of_wellLabeled (cleanKeywords kwRaw) X sheets hw none
    (fun t ht => by cases ht) []]
  rfl

theorem pdResultFrags_eq (sheets : List Sheet) (X : Nat) (kwRaw : String)
    (hw : ∀ s ∈ sheets, wellLabeled X s = true) :
    pdResultFrags sheets X kwRaw = .ok (resultFrags sheets X kwRaw) := by
  unfold pdResultFrags resultFrags
  rw [pdRunSheets_of_wellLabeled (cleanKeywords kwRaw) X sheets hw none
    (fun t ht => by cases ht) []]
  rfl

/-! ### The claims -/

/-- C3: for every sheet grid, the detected header row index is the lowest
row index (scanning column 0 top to bottom) whose first-column cell,
trimmed and lowercased, equals exactly "date"; if no such row exists the
sheet contributes no table — it is skipped, with no fallback row chosen. -/
theorem C3_header_detection (s : Sheet) :
    (∀ i, sheetHeaderIdx s = some i →
      isDateCell ((s.padded.getD i []).getD 0 Cell.na) = true ∧
      ∀ k, k < i → isDateCell ((s.padded.getD k []).getD 0 Cell.na) = false) ∧
    (sheetHeaderIdx s = none →
      ∀ tmpl kws X, processSheet tmpl kws X s = none) := by
  constructor
  · intro i hi
    obtain ⟨⟨r, hr, hp⟩, hmin⟩ := (firstIdx_eq_some _ _ i).mp hi
    obtain ⟨hlt, hget⟩ := List.get?_eq_some.mp hr
    constructor
    · have hgd : s.padded.getD i [] = r := by
        rw [List.getD_eq_getElem _ _ hlt, ← hget]
        rfl
      rw [hgd]
      exact hp
    · intro k hk
      have hklt : k < s.padded.length := Nat.lt_trans hk hlt
      have hgk : s.padded.get? k = some (s.padded.get ⟨k, hklt⟩) :=
        List.get?_eq_get hklt
      have hfk := hmin k hk _ hgk
      have hgd : s.padded.getD k [] = s.padded.get ⟨k, hklt⟩ := by
        rw [List.getD_eq_getElem _ _ hklt]
        rfl
      rw [hgd]
      exact hfk
  · intro hnone tmpl kws X
    rw [processSheet_eq_none_iff]
    unfold sheetSkips
    rw [hnone]
    simp

/-- Witness for C3, on the concrete workbook: sheet A's header row is
row 2 and rows 0 and 1 are rejected; sheet B, with no date cell, is
skipped. -/
theorem C3_header_detection_witness :
    (isDateCell ((sheetA.padded.getD 2 []).getD 0 Cell.na) = true ∧
      ∀ k, k < 2 → isDateCell ((sheetA.padded.getD k []).getD 0 Cell.na) = false) ∧
    processSheet none [] 3 sheetB = none :=
  ⟨(C3_header_detection sheetA).1 2 (by decide),
   (C3_header_detection sheetB).2 (by decide) none [] 3⟩

/-- Counterexample to C6 as stated: a sheet failure can be fatal. The
workbook pairs the processable sheet A with sheet P, whose fixed-column
slice carries the label "Particulars" twice; selecting that label yields
a two-column frame, `.astype(str).str` raises AttributeError, and the
whole run aborts instead of skipping the sheet — even though neither
sheet meets a skip condition. -/
theorem C6_no_data_signal_counterexample :
    process_file_pd [sheetA, sheetDupP] 4 "tds" = .error .attrError ∧
    sheetSkips sheetA = false ∧ sheetSkips sheetDupP = false := by
  decide

/-- C6 (amended): the faithful run returns the distinguishable "no data"
signal (`Except.ok none`, never an empty zero-row table) exactly when
every sheet is skipped; a sheet's silent skip is exactly the three local
skip conditions; but sheet handling is not always non-fatal: a sheet
whose exclusion-filter column lookup raises aborts the whole run with an
error, exactly when the sheet has a header row, a non-blank grid, a
nonempty body, and a duplicated particulars label. -/
theorem C6_no_data_signal (sheets : List Sheet) (X : Nat) (kwRaw : String) :
    (process_file_pd sheets X kwRaw = .ok none ↔
      ∀ s ∈ sheets, sheetSkips s = true) ∧
    (∀ tmpl kws s, pdProcessSheet tmpl kws X s = .ok none ↔
      sheetSkips s = true) ∧
    (∀ tmpl kws s e, pdProcessSheet tmpl kws X s = .error e ↔
      ∃ h, sheetHeaderIdx s = some h ∧ s.padded.all rowAllNa = false ∧
        (sheetBody s h).isEmpty = false ∧
        pdKeep (sheetHeader s h) X = .error e) := by
  refine ⟨process_file_pd_ok_none_iff sheets X kwRaw, ?_, ?_⟩
  · intro tmpl kws s
    exact pdProcessSheet_eq_ok_none_iff
  · intro tmpl kws s e
    exact pdProcessSheet_eq_error_iff

/-- Witness for the amended C6: a workbook whose only sheet has no header
row yields the no-data signal. -/
theorem C6_no_data_signal_witness : process_file_pd [sheetB] 3 "tds" = .ok none :=
  (C6_no_data_signal [sheetB] 3 "tds").1.mpr (by decide)

/-- C4: keyword handling — the comma-separated text is split, each entry
trimmed and lowercased, blank entries discarded, with the empty result
defaulting to the single keyword "tds"; and column discovery scans the
full original header, selecting every position whose label, case-folded,
contains some keyword as a substring. -/
theorem C4_keywords (raw : String) (header : List Cell) (j : Nat) :
    ((∃ k ∈ splitComma raw.data, (stripChars k).isEmpty = false) →
      cleanKeywords raw
        = ((splitComma raw.data).filter (fun k => !(stripChars k).isEmpty)).map
            (fun k => lowerChars (stripChars k))) ∧
    ((∀ k ∈ splitComma raw.data, (stripChars k).isEmpty = true) →
      cleanKeywords raw = ["tds".data]) ∧
    (j ∈ tdsColIdxs header (cleanKeywords raw) ↔
      j < header.length ∧ ∃ kw ∈ cleanKeywords raw,
        containsSub kw (lowerChars ((header.getD j Cell.na).chars)) = true) := by
  refine ⟨?_, ?_, ?_⟩
  · rintro ⟨k, hk, hke⟩
    have hkf : k ∈ (splitComma raw.data).filter (fun k => !(stripChars k).isEmpty) :=
      List.mem_filter.mpr ⟨hk, by rw [hke]; rfl⟩
    have hmem : lowerChars (stripChars k)
        ∈ ((splitComma raw.data).filter (fun k => !(stripChars k).isEmpty)).map
            (fun k => lowerChars (stripChars k)) :=
      List.mem_map_of_mem _ hkf
    have hne : (((splitComma raw.data).filter
        (fun k => !(stripChars k).isEmpty)).map
          (fun k => lowerChars (stripChars k))).isEmpty = false := by
      cases hmap : ((splitComma raw.data).filter
          (fun k => !(stripChars k).isEmpty)).map
            (fun k => lowerChars (stripChars k)) with
      | nil => exact absurd (hmap ▸ hmem) (List.not_mem_nil _)
      | cons a t => rfl
    unfold cleanKeywords
    simp [hne]
  · intro hall
    have hfil : (splitComma raw.data).filter (fun k => !(stripChars k).isEmpty) = [] :=
      List.filter_eq_nil_iff.mpr (fun k hk => by rw [hall k hk]; decide)
    unfold cleanKeywords
    simp [hfil]
  · unfold tdsColIdxs
    rw [List.mem_filter, List.mem_range, List.any_eq_true]

/-- Witness for C4: a keyword list with blanks and mixed case is cleaned
entrywise; an all-blank list falls back to "tds"; column 3 of the example
header is discovered for keyword "tds". -/
theorem C4_keywords_witness :
    cleanKeywords " TDS Payable , x"
      = ((splitComma (" TDS Payable , x").data).filter
          (fun k => !(stripChars k).isEmpty)).map
            (fun k => lowerChars (stripChars k)) ∧
    cleanKeywords " ,  , " = ["tds".data] ∧
    3 ∈ tdsColIdxs
        [Cell.str "Date", Cell.str "Particulars", Cell.str "Amount",
          Cell.str "TDS Payable"] (cleanKeywords "tds") :=
  ⟨(C4_keywords " TDS Payable , x" [] 0).1
      ⟨" TDS Payable ".data, by decide, by decide⟩,
   (C4_keywords " ,  , " [] 0).2.1 (by decide),
   (C4_keywords "tds"
      [Cell.str "Date", Cell.str "Particulars", Cell.str "Amount",
        Cell.str "TDS Payable"] 3).2.2.mpr
      ⟨by decide, "tds".data, by decide, by decide⟩⟩

/-- Counterexample to C5 as stated: when the slice carries the
particulars-like label twice, the source's `base_data[particulars_col]`
is a two-column frame, `.astype(str).str` raises AttributeError, and no
row filtering happens at all — the run aborts. The claim's two cases
(filter, or no filtering) are not exhaustive. -/
theorem C5_grand_total_filter_counterexample :
    pdKept sheetDupP 0 4 = .error .attrError ∧
    process_file_pd [sheetDupP] 4 "tds" = .error .attrError := by
  decide

/-- C5 (amended): the grand-total exclusion filter has three regimes,
split by the occurrences of the first slice label containing
"particular" (case-insensitive). With no such label every row is kept;
with exactly one occurrence a row is kept iff its cell in that column,
case-folded, does not contain "grand total" (so a cell with "total"
alone is retained); with a duplicated occurrence the lookup raises and
the run aborts. The retained rows are exactly the filtered body. -/
theorem C5_grand_total_filter (header r : List Cell) (X : Nat)
    (s : Sheet) (h : Nat) :
    (particularsLabel (pdBaseCols header X) = none →
      pdKeep header X = .ok (fun _ => true)) ∧
    (∀ lab j, particularsLabel (pdBaseCols header X) = some lab →
      labelPositions (pdBaseCols header X) lab = [j] →
      ∃ keep, pdKeep header X = .ok keep ∧
        (keep r = true ↔
          containsSub "grand total".data
            (lowerChars ((r.getD ((pdSlicePs header X).getD j 0) Cell.na).chars))
            = false)) ∧
    (∀ lab, particularsLabel (pdBaseCols header X) = some lab →
      (labelPositions (pdBaseCols header X) lab).length ≠ 1 →
      pdKeep header X = .error .attrError) ∧
    (∀ lab, particularsLabel (pdBaseCols header X) = some lab →
      containsSub "particular".data (lowerChars lab.chars) = true) ∧
    (∀ keep, pdKeep (sheetHeader s h) X = .ok keep →
      pdKept s h X = .ok ((sheetBody s h).filter keep)) := by
  refine ⟨?_, ?_, ?_, ?_, ?_⟩
  · intro hlab
    exact pdKeep_none_label hlab
  · intro lab j hlab hone
    refine ⟨fun r' => !containsSub "grand total".data
        (lowerChars ((r'.getD ((pdSlicePs header X).getD j 0) Cell.na).chars)),
      pdKeep_one_pos hlab hone, ?_⟩
    show (!containsSub "grand total".data
        (lowerChars ((r.getD ((pdSlicePs header X).getD j 0) Cell.na).chars))) = true
      ↔ containsSub "grand total".data
          (lowerChars ((r.getD ((pdSlicePs header X).getD j 0) Cell.na).chars))
        = false
    constructor
    · intro hk
      cases hcs : containsSub "grand total".data
          (lowerChars ((r.getD ((pdSlicePs header X).getD j 0) Cell.na).chars)) with
      | false => rfl
      | true =>
        rw [hcs] at hk
        cases hk
    · intro hf
      rw [hf]
      rfl
  · intro lab hlab hlen
    exact pdKeep_err_pos hlab hlen
  · intro lab hlab
    unfold particularsLabel at hlab
    obtain ⟨jj, hjj, hval⟩ := Option.map_eq_some'.mp hlab
    obtain ⟨⟨c, hc, hpc⟩, _⟩ := (firstIdx_eq_some _ _ _).mp hjj
    obtain ⟨hlt, hget⟩ := List.get?_eq_some.mp hc
    have hgd : (pdBaseCols header X).getD jj Cell.na = c := by
      rw [List.getD_eq_getElem _ _ hlt, ← hget]
      rfl
    rw [← hval, hgd]
    exact hpc
  · intro keep hk
    unfold pdKept
    rw [hk]
    rfl

/-- Witness for the amended C5: with the distinct labels
`Date, Particulars, Amount` the particulars label occurs once, and the
returned predicate drops a row exactly when its particulars cell
contains "grand total". -/
theorem C5_grand_total_filter_witness :
    ∃ keep, pdKeep [Cell.str "Date", Cell.str "Particulars", Cell.str "Amount"] 3
        = .ok keep ∧
      (keep [Cell.str "2024", Cell.str "GRAND TOTAL", Cell.num 5] = true ↔
        containsSub "grand total".data
          (lowerChars ((([Cell.str "2024", Cell.str "GRAND TOTAL",
              Cell.num 5] : List Cell).getD
            ((pdSlicePs [Cell.str "Date", Cell.str "Particulars",
              Cell.str "Amount"] 3).getD 1 0) Cell.na).chars)) = false) := by
  obtain ⟨_, hc2, _, _, _⟩ := C5_grand_total_filter
    [Cell.str "Date", Cell.str "Particulars", Cell.str "Amount"]
    [Cell.str "2024", Cell.str "GRAND TOTAL", Cell.num 5] 3 sheetA 0
  exact hc2 (Cell.str "Particulars") 1 (by decide) (by decide)

theorem sliceLabels_of_width_le {s : Sheet} {h X : Nat}
    (hh : sheetHeaderIdx s = some h) (hwX : gridWidth s.grid ≤ X) :
    sliceLabels (sheetHeader s h) X
      = sliceLabels (sheetHeader s h) (gridWidth s.grid) := by
  unfold sliceLabels
  rw [List.take_of_length_le (by rw [sheetHeader_length hh]; exact hwX),
    List.take_of_length_le (by rw [sheetHeader_length hh])]

theorem sheetKept_of_width_le {s : Sheet} {h X : Nat}
    (hh : sheetHeaderIdx s = some h) (hwX : gridWidth s.grid ≤ X) :
    sheetKept s h X = sheetKept s h (gridWidth s.grid) := by
  unfold sheetKept
  rw [sliceLabels_of_width_le hh hwX]

theorem mkFragment_of_width_le {tmpl : Option (List Cell)}
    {kws : List (List Char)} {s : Sheet} {h X : Nat}
    (hh : sheetHeaderIdx s = some h) (hwX : gridWidth s.grid ≤ X) :
    mkFragment tmpl kws X s h = mkFragment tmpl kws (gridWidth s.grid) s h := by
  have htake : ∀ r ∈ sheetKept s h (gridWidth s.grid),
      r.take X = r.take (gridWidth s.grid) := by
    intro r hr
    have hlen : r.length = gridWidth s.grid := sheetKept_row_length hr
    rw [List.take_of_length_le (by omega), List.take_of_length_le (by omega)]
  cases tmpl with
  | none =>
    rw [mkFragment_def_none, mkFragment_def_none, sliceLabels_of_width_le hh hwX,
      sheetKept_of_width_le hh hwX, List.map_congr_left htake]
  | some t =>
    rw [mkFragment_def_some, mkFragment_def_some, sliceLabels_of_width_le hh hwX,
      sheetKept_of_width_le hh hwX,
      List.map_congr_left (fun r hr => by rw [htake r hr])]

/-- C8: when the fixed-column count X exceeds the sheet's available column
count, the slice truncates gracefully to the available columns (its length
is min X w, and for w ≤ X it is the whole renamed header), and the sheet
processes exactly as it would with X equal to the available width — no
failure is introduced. -/
theorem C8_graceful_truncation (header : List Cell) (X : Nat)
    (tmpl : Option (List Cell)) (kws : List (List Char)) (s : Sheet) :
    (sliceLabels header X).length = min X header.length ∧
    (header.length ≤ X → sliceLabels header X = renameLast header) ∧
    (gridWidth s.grid ≤ X →
      processSheet tmpl kws X s = processSheet tmpl kws (gridWidth s.grid) s) := by
  refine ⟨sliceLabels_length header X, ?_, ?_⟩
  · intro hle
    unfold sliceLabels
    rw [List.take_of_length_le hle]
  · intro hwX
    cases hps : processSheet tmpl kws X s with
    | none =>
      have hsk := processSheet_eq_none_iff.mp hps
      exact (processSheet_eq_none_iff.mpr hsk).symm
    | some p =>
      obtain ⟨h, hh, h1, hb, hpe⟩ := processSheet_eq_some_iff.mp hps
      have hother : processSheet tmpl kws (gridWidth s.grid) s
          = some (sliceLabels (sheetHeader s h) (gridWidth s.grid),
              mkFragment tmpl kws (gridWidth s.grid) s h) :=
        processSheet_eq_some_iff.mpr ⟨h, hh, h1, hb, rfl⟩
      rw [hother, hpe, sliceLabels_of_width_le hh hwX,
        mkFragment_of_width_le hh hwX]

/-- Witness for C8: the example sheet has 4 columns; configured with
X = 21 it is processed exactly as with X = 4. -/
theorem C8_graceful_truncation_witness :
    (sliceLabels [Cell.str "Date", Cell.str "Amount"] 21).length = min 21 2 ∧
    processSheet none ["tds".data] 21 sheetA
      = processSheet none ["tds".data] (gridWidth sheetA.grid) sheetA :=
  ⟨(C8_graceful_truncation [Cell.str "Date", Cell.str "Amount"] 21 none
      ["tds".data] sheetA).1,
   (C8_graceful_truncation [Cell.str "Date", Cell.str "Amount"] 21 none
      ["tds".data] sheetA).2.2 (by decide)⟩

/-- Rename characterization on the unique-label model: the rename maps
every slice label equal to the last slice label to `Ledger_Amount`, and
when the last label does not occur earlier in the slice exactly the
last column is renamed. -/
theorem renameLast_by_label (header : List Cell) (X : Nat) (last : Cell)
    (hlast : (header.take X).getLast? = some last) :
    (∀ j, j < (header.take X).length →
      (sliceLabels header X).getD j Cell.na
        = (if (header.take X).getD j Cell.na = last then Cell.str "Ledger_Amount"
          else (header.take X).getD j Cell.na)) ∧
    (last ∉ (header.take X).dropLast →
      sliceLabels header X
        = (header.take X).dropLast ++ [Cell.str "Ledger_Amount"]) := by
  have hren : sliceLabels header X
      = (header.take X).map
          (fun c => if c = last then Cell.str "Ledger_Amount" else c) := by
    unfold sliceLabels renameLast
    rw [hlast]
  constructor
  · intro j hj
    rw [hren, List.getD_eq_getElem _ _ (by simpa using hj), List.getElem_map,
      List.getD_eq_getElem _ _ hj]
  · intro hnot
    have hne : header.take X ≠ [] := by
      intro hnil
      rw [hnil] at hlast
      cases hlast
    have hsplit : (header.take X).dropLast ++ [(header.take X).getLast hne]
        = header.take X := List.dropLast_append_getLast hne
    have hlasteq : (header.take X).getLast hne = last := by
      rw [List.getLast?_eq_getLast _ hne] at hlast
      exact Option.some.inj hlast
    have hmapsplit : (header.take X).map
        (fun c => if c = last then Cell.str "Ledger_Amount" else c)
        = ((header.take X).dropLast ++ [(header.take X).getLast hne]).map
            (fun c => if c = last then Cell.str "Ledger_Amount" else c) := by
      rw [hsplit]
    have hdrop : ((header.take X).dropLast).map
        (fun c => if c = last then Cell.str "Ledger_Amount" else c)
        = (header.take X).dropLast := by
      have hcongr : ∀ c ∈ (header.take X).dropLast,
          (if c = last then Cell.str "Ledger_Amount" else c) = c := by
        intro c hc
        apply if_neg
        intro hceq
        apply hnot
        rw [← hceq]
        exact hc
      rw [List.map_congr_left hcongr]
      simp
    rw [hren, hmapsplit, List.map_append, hdrop]
    simp [hlasteq]

/-- Counterexample to C9 as stated: with header `[Date, Amt, Amt]` and
X = 3, the positional slice `data.columns[:3]` holds a duplicated label,
so the label-based selection `data.loc[:, base_cols]` expands to five
columns, and the by-label rename maps all four `Amt` columns to
`Ledger_Amount` — the post-rename slice is not even the three selected
positions, its position 1 no longer bears its original label, and the
locked template carries `Ledger_Amount` four times. -/
theorem C9_rename_counterexample :
    gatherRow (pdSlicePs [Cell.str "Date", Cell.str "Amt", Cell.str "Amt"] 3)
        [Cell.str "Date", Cell.str "Amt", Cell.str "Amt"]
      = [Cell.str "Date", Cell.str "Amt", Cell.str "Amt", Cell.str "Amt",
         Cell.str "Amt"] ∧
    pdBaseCols [Cell.str "Date", Cell.str "Amt", Cell.str "Amt"] 3
      = dupTemplate ∧
    (pdBaseCols [Cell.str "Date", Cell.str "Amt", Cell.str "Amt"] 3).getD 1
        Cell.na ≠ Cell.str "Amt" ∧
    pdLockedTemplate [sheetDup] 3 "tds" = .ok (some dupTemplate) ∧
    dupTemplate.length ≠ 3 := by
  decide

/-- C9 (amended): the rename is by label over the duplicate-expanded
slice — every selected column whose label equals the last positional
slice label becomes `Ledger_Amount`; when the full header labels are
pairwise distinct this collapses to renaming exactly the last slice
column and no other. -/
theorem C9_rename_by_label (header : List Cell) (X : Nat) (last : Cell)
    (hlast : (sliceKeys header X).getLast? = some last) :
    (∀ j, j < (pdSlicePs header X).length →
      (pdBaseCols header X).getD j Cell.na
        = (if (gatherRow (pdSlicePs header X) header).getD j Cell.na = last
          then Cell.str "Ledger_Amount"
          else (gatherRow (pdSlicePs header X) header).getD j Cell.na)) ∧
    (header.Nodup →
      pdBaseCols header X
        = (header.take X).dropLast ++ [Cell.str "Ledger_Amount"]) := by
  have hren : pdBaseCols header X
      = (gatherRow (pdSlicePs header X) header).map
          (fun c => if c = last then Cell.str "Ledger_Amount" else c) := by
    unfold pdBaseCols renameCols
    rw [hlast]
  constructor
  · intro j hj
    have hjg : j < (gatherRow (pdSlicePs header X) header).length := by
      rw [gatherRow_length]
      exact hj
    rw [hren, List.getD_eq_getElem _ _ (by simpa using hjg), List.getElem_map,
      List.getD_eq_getElem _ _ hjg]
  · intro hnd
    rw [pdBaseCols_of_nodup hnd X]
    have htake_nd : (header.take X).Nodup :=
      List.Nodup.sublist (List.take_sublist X header) hnd
    have hlast' : (header.take X).getLast? = some last := hlast
    have hne : header.take X ≠ [] := by
      intro hnil
      rw [hnil] at hlast'
      cases hlast'
    have hlasteq : (header.take X).getLast hne = last := by
      rw [List.getLast?_eq_getLast _ hne] at hlast'
      exact Option.some.inj hlast'
    have hsplit : (header.take X).dropLast ++ [(header.take X).getLast hne]
        = header.take X := List.dropLast_append_getLast hne
    have hnotin : last ∉ (header.take X).dropLast := by
      have hnd2 : ((header.take X).dropLast
          ++ [(header.take X).getLast hne]).Nodup := by
        rw [hsplit]
        exact htake_nd
      have hdisj := (List.nodup_append.mp hnd2).2.2
      intro hmem
      exact hdisj hmem (List.mem_singleton.mpr hlasteq.symm)
    exact (renameLast_by_label header X last hlast').2 hnotin

/-- Witness for the amended C9: with the distinct labels
`Date, Particulars, Amount` and X = 3, exactly the last column is
renamed. -/
theorem C9_rename_by_label_witness :
    pdBaseCols [Cell.str "Date", Cell.str "Particulars", Cell.str "Amount"] 3
      = (([Cell.str "Date", Cell.str "Particulars",
          Cell.str "Amount"] : List Cell).take 3).dropLast
        ++ [Cell.str "Ledger_Amount"] :=
  (C9_rename_by_label [Cell.str "Date", Cell.str "Particulars", Cell.str "Amount"]
    3 (Cell.str "Amount") (by decide)).2 (by decide)

/-- Counterexample to C2 as stated: sheet `S` has the keyword-matched
label "TDS A" on two columns (values 3 and 5). The source's
`data[tds_cols]` resolves each matched label to every column bearing it,
so both columns are selected twice and the attached TDS_Amount is 16 —
double the claimed row-wise sum 8 over the matched columns. -/
theorem C2_tds_amount_counterexample :
    process_file_pd [sheetDupT] 1 "tds"
      = .ok (some (DF.mk [Cell.str "Ledger_Amount", Cell.str "TDS_Amount",
          Cell.str "LedgerName"]
        [[Cell.str "2024", Cell.num 16, Cell.str "S"]])) ∧
    tdsRowSum (tdsColIdxs (sheetHeader sheetDupT 0) (cleanKeywords "tds"))
        ((sheetBody sheetDupT 0).getD 0 []) = 8 ∧
    (Cell.num 16 : Cell) ≠ Cell.num 8 := by
  decide

/-- C2 (amended): for every sheet the faithful pipeline processes into a
fragment, with zero keyword-matched columns every retained row's
TDS_Amount is the null marker (distinct from the number zero); with at
least one match it is that row's sum over the label-expanded selection —
each matched label contributing once per column bearing it, so a
duplicated matched label double-counts — where non-coercible cells
contribute zero and no cell value rejects a row; when the header labels
are pairwise distinct the expanded sum is exactly the claimed sum over
the matched positions. -/
theorem C2_tds_amount (tmpl : Option (List Cell)) (kws : List (List Char))
    (X : Nat) (s : Sheet) (p : List Cell × DF)
    (hp : pdProcessSheet tmpl kws X s = .ok (some p)) :
    ∃ h keep, sheetHeaderIdx s = some h ∧
      pdKeep (sheetHeader s h) X = .ok keep ∧
      (tdsColIdxs (sheetHeader s h) kws = [] →
        p.2.colVals? (Cell.str "TDS_Amount")
          = some (((sheetBody s h).filter keep).map (fun _ => Cell.na))) ∧
      (tdsColIdxs (sheetHeader s h) kws ≠ [] →
        p.2.colVals? (Cell.str "TDS_Amount")
          = some (((sheetBody s h).filter keep).map
              (fun r => Cell.num (pdTdsSum (sheetHeader s h) kws r)))) ∧
      Cell.na ≠ Cell.num 0 ∧
      p.2.rows.length = ((sheetBody s h).filter keep).length ∧
      ((sheetHeader s h).Nodup →
        ∀ r, pdTdsSum (sheetHeader s h) kws r
          = tdsRowSum (tdsColIdxs (sheetHeader s h) kws) r) := by
  obtain ⟨h, keep, hh, _, _, hk, hpe⟩ := pdProcessSheet_eq_ok_some_iff.mp hp
  have hfrag : p.2 = pdFragCore tmpl kws (sheetHeader s h) X
      ((sheetBody s h).filter keep) s.name := congrArg Prod.snd hpe
  obtain ⟨hv, _, hrl, _⟩ := pdFragCore_spec tmpl kws (sheetHeader s h) X
    ((sheetBody s h).filter keep) s.name
  refine ⟨h, keep, hh, hk, ?_, ?_, by decide, ?_, ?_⟩
  · intro hemp
    rw [hfrag, hv, hemp]
    rfl
  · intro hne
    rw [hfrag, hv]
    have hief : (tdsColIdxs (sheetHeader s h) kws).isEmpty = false := by
      cases hidx : tdsColIdxs (sheetHeader s h) kws with
      | nil => exact absurd hidx hne
      | cons a t => rfl
    simp [hief]
  · rw [hfrag]
    exact hrl
  · intro hnd r
    unfold pdTdsSum
    rw [pdTdsPositions_of_nodup hnd]

/-- Witness for the amended C2, on the concrete workbook: sheet A's
labels are distinct, one column matches, and the fragment carries the
per-row expanded sums. -/
theorem C2_tds_amount_witness :
    ∃ h keep, sheetHeaderIdx sheetA = some h ∧
      pdKeep (sheetHeader sheetA h) 3 = .ok keep ∧
      (DF.mk [Cell.str "Date", Cell.str "Particulars", Cell.str "Ledger_Amount",
          Cell.str "TDS_Amount", Cell.str "LedgerName"]
        [[Cell.str "2024-01-01", Cell.str "Purchase", Cell.num 100, Cell.num 10,
          Cell.str "SheetA"]]).colVals? (Cell.str "TDS_Amount")
        = some (((sheetBody sheetA h).filter keep).map
            (fun r => Cell.num (pdTdsSum (sheetHeader sheetA h)
              (cleanKeywords "tds") r))) := by
  obtain ⟨h, keep, hh, hk, _, hnecase, _, _, _⟩ := C2_tds_amount none
    (cleanKeywords "tds") 3 sheetA
    ([Cell.str "Date", Cell.str "Particulars", Cell.str "Ledger_Amount"],
      DF.mk [Cell.str "Date", Cell.str "Particulars", Cell.str "Ledger_Amount",
          Cell.str "TDS_Amount", Cell.str "LedgerName"]
        [[Cell.str "2024-01-01", Cell.str "Purchase", Cell.num 100, Cell.num 10,
          Cell.str "SheetA"]]) (by decide)
  have h2 : h = 2 := by
    have hidx : sheetHeaderIdx sheetA = some 2 := by decide
    rw [hidx] at hh
    exact (Option.some.inj hh).symm
  subst h2
  exact ⟨2, keep, hh, hk, hnecase (by decide)⟩

/-- Counterexample to C10 as stated: sheet `U` carries the matched label
"tds one" on two columns with row values 1 and 2. The value attached to
the single retained row is 6 — not 3, the sum of that row's cells in the
discovered keyword columns — because the label-expanded selection visits
both columns twice. -/
theorem C10_row_alignment_counterexample :
    process_file_pd [sheetDupU] 1 "tds"
      = .ok (some (DF.mk [Cell.str "Ledger_Amount", Cell.str "TDS_Amount",
          Cell.str "LedgerName"]
        [[Cell.str "2024", Cell.num 6, Cell.str "U"]])) ∧
    (sheetBody sheetDupU 0).map
        (fun r => Cell.num (tdsRowSum
          (tdsColIdxs (sheetHeader sheetDupU 0) (cleanKeywords "tds")) r))
      = [Cell.num 3] ∧
    (Cell.num 6 : Cell) ≠ Cell.num 3 := by
  decide

/-- C10 (amended): for every sheet the faithful pipeline processes into a
fragment, the k-th TDS_Amount entry is computed from the k-th retained
row itself (row identity preserved through the filter) as the
label-expanded sum over that row, excluded rows contribute no entry at
all, and when the header labels are pairwise distinct that entry is
exactly the claimed sum of the same row's cells at the discovered
positions. -/
theorem C10_row_alignment (tmpl : Option (List Cell)) (kws : List (List Char))
    (X : Nat) (s : Sheet) (p : List Cell × DF)
    (hp : pdProcessSheet tmpl kws X s = .ok (some p)) :
    ∃ h keep, sheetHeaderIdx s = some h ∧
      pdKeep (sheetHeader s h) X = .ok keep ∧
      p.2.rows.length = ((sheetBody s h).filter keep).length ∧
      ∀ vals, p.2.colVals? (Cell.str "TDS_Amount") = some vals →
        vals.length = ((sheetBody s h).filter keep).length ∧
        (tdsColIdxs (sheetHeader s h) kws ≠ [] →
          (∀ k, k < vals.length →
            vals.getD k Cell.na
              = Cell.num (pdTdsSum (sheetHeader s h) kws
                  (((sheetBody s h).filter keep).getD k []))) ∧
          ((sheetHeader s h).Nodup →
            ∀ k, k < vals.length →
              vals.getD k Cell.na
                = Cell.num (tdsRowSum (tdsColIdxs (sheetHeader s h) kws)
                    (((sheetBody s h).filter keep).getD k [])))) := by
  obtain ⟨h, keep, hh, _, _, hk, hpe⟩ := pdProcessSheet_eq_ok_some_iff.mp hp
  have hfrag : p.2 = pdFragCore tmpl kws (sheetHeader s h) X
      ((sheetBody s h).filter keep) s.name := congrArg Prod.snd hpe
  obtain ⟨hvspec, _, hrl, _⟩ := pdFragCore_spec tmpl kws (sheetHeader s h) X
    ((sheetBody s h).filter keep) s.name
  refine ⟨h, keep, hh, hk, by rw [hfrag]; exact hrl, ?_⟩
  intro vals hv
  rw [hfrag, hvspec] at hv
  have hveq : vals = (if (tdsColIdxs (sheetHeader s h) kws).isEmpty
      then ((sheetBody s h).filter keep).map (fun _ => Cell.na)
      else ((sheetBody s h).filter keep).map
        (fun r => Cell.num (pdTdsSum (sheetHeader s h) kws r))) :=
    (Option.some.inj hv).symm
  constructor
  · rw [hveq]
    split <;> simp
  · intro hne
    have hief : (tdsColIdxs (sheetHeader s h) kws).isEmpty = false := by
      cases hidx : tdsColIdxs (sheetHeader s h) kws with
      | nil => exact absurd hidx hne
      | cons a t => rfl
    have hdef : vals = ((sheetBody s h).filter keep).map
        (fun r => Cell.num (pdTdsSum (sheetHeader s h) kws r)) := by
      rw [hveq, hief]
      rfl
    have hmain : ∀ k, k < vals.length →
        vals.getD k Cell.na
          = Cell.num (pdTdsSum (sheetHeader s h) kws
              (((sheetBody s h).filter keep).getD k [])) := by
      intro k hkl
      have hklen : k < ((sheetBody s h).filter keep).length := by
        rw [hdef] at hkl
        simpa using hkl
      rw [hdef, List.getD_eq_getElem _ _ (by simpa using hklen),
        List.getElem_map, List.getD_eq_getElem _ _ hklen]
    refine ⟨hmain, ?_⟩
    intro hnd k hkl
    rw [hmain k hkl]
    have hsum : pdTdsSum (sheetHeader s h) kws
        (((sheetBody s h).filter keep).getD k [])
        = tdsRowSum (tdsColIdxs (sheetHeader s h) kws)
            (((sheetBody s h).filter keep).getD k []) := by
      unfold pdTdsSum
      rw [pdTdsPositions_of_nodup hnd]
    rw [hsum]

/-- Witness for the amended C10, on the concrete workbook: the single
retained row's TDS_Amount is the expanded sum computed from that same
row. -/
theorem C10_row_alignment_witness :
    ∃ h keep, sheetHeaderIdx sheetA = some h ∧
      pdKeep (sheetHeader sheetA h) 3 = .ok keep ∧
      ∀ vals, (DF.mk [Cell.str "Date", Cell.str "Particulars",
          Cell.str "Ledger_Amount", Cell.str "TDS_Amount", Cell.str "LedgerName"]
        [[Cell.str "2024-01-01", Cell.str "Purchase", Cell.num 100, Cell.num 10,
          Cell.str "SheetA"]]).colVals? (Cell.str "TDS_Amount") = some vals →
        vals.length = ((sheetBody sheetA h).filter keep).length := by
  obtain ⟨h, keep, hh, hk, _, hvals⟩ := C10_row_alignment none
    (cleanKeywords "tds") 3 sheetA
    ([Cell.str "Date", Cell.str "Particulars", Cell.str "Ledger_Amount"],
      DF.mk [Cell.str "Date", Cell.str "Particulars", Cell.str "Ledger_Amount",
          Cell.str "TDS_Amount", Cell.str "LedgerName"]
        [[Cell.str "2024-01-01", Cell.str "Purchase", Cell.num 100, Cell.num 10,
          Cell.str "SheetA"]]) (by decide)
  exact ⟨h, keep, hh, hk, fun vals hv => (hvals vals hv).1⟩

theorem reconcileRow_getD (tmpl labels r : List Cell) (j : Nat)
    (hj : j < tmpl.length) :
    (reconcileRow tmpl labels r).getD j Cell.na
      = (match idxOfLabel (tmpl.getD j Cell.na) labels with
        | some i => r.getD i Cell.na
        | none => Cell.na) := by
  have hjlen : j < (reconcileRow tmpl labels r).length := by
    rw [reconcileRow_length]
    exact hj
  rw [List.getD_eq_getElem _ Cell.na hjlen, List.getD_eq_getElem tmpl Cell.na hj]
  simp only [reconcileRow, List.getElem_map]

/-- Template-lock invariant on the unique-label model: once a run locks
the template, the final column list is exactly the template followed by
TDS_Amount and LedgerName, rows are total, and reconciliation fills
missing template labels with the null marker while dropping extras. -/
theorem template_lock_model (sheets : List Sheet) (X : Nat) (kwRaw : String)
    (df : DF) (hp : process_file sheets X kwRaw = some df) :
    ∃ tmpl, lockedTemplate sheets X kwRaw = some tmpl ∧
      df.cols = tmpl ++ [Cell.str "TDS_Amount", Cell.str "LedgerName"] ∧
      (∀ c ∈ df.cols,
        c ∈ tmpl ∨ c = Cell.str "TDS_Amount" ∨ c = Cell.str "LedgerName") ∧
      (∀ r ∈ df.rows, r.length = df.cols.length) ∧
      (∃ pre s rest, sheets = pre ++ s :: rest ∧
        (∀ u ∈ pre, sheetSkips u = true) ∧
        ∃ h, sheetHeaderIdx s = some h ∧
          tmpl = sliceLabels (sheetHeader s h) X) ∧
      (∀ labels r,
        (reconcileRow tmpl labels r).length = tmpl.length ∧
        (∀ j, j < tmpl.length → idxOfLabel (tmpl.getD j Cell.na) labels = none →
          (reconcileRow tmpl labels r).getD j Cell.na = Cell.na) ∧
        (∀ j i, j < tmpl.length → idxOfLabel (tmpl.getD j Cell.na) labels = some i →
          (reconcileRow tmpl labels r).getD j Cell.na = r.getD i Cell.na)) := by
  rcases process_file_cases sheets X kwRaw with ⟨hn, _⟩ |
    ⟨pre, s, rest, labs, frag, heq, hpre, hps, hlock, hfrags, hsome⟩
  · rw [hn] at hp
    cases hp
  · have hdf : df = selectCols
        (concatFrames (frag :: tailFrags (cleanKeywords kwRaw) X labs rest))
        (labs ++ [Cell.str "TDS_Amount", Cell.str "LedgerName"]) := by
      rw [hsome] at hp
      exact (Option.some.inj hp).symm
    refine ⟨labs, hlock, ?_, ?_, ?_, ?_, ?_⟩
    · rw [hdf]
      rfl
    · intro c hc
      rw [hdf] at hc
      have hc' : c ∈ labs ++ [Cell.str "TDS_Amount", Cell.str "LedgerName"] := hc
      rcases List.mem_append.mp hc' with h1 | h2
      · exact Or.inl h1
      · rcases List.mem_cons.mp h2 with rfl | h3
        · right
          left
          rfl
        · right
          right
          simpa using h3
    · intro r hr
      rw [hdf] at hr ⊢
      obtain ⟨r0, _, rfl⟩ := List.mem_map.mp hr
      show (reconcileRow _ _ r0).length = _
      rw [reconcileRow_length]
      rfl
    · obtain ⟨h, hh, _, _, hpe⟩ := processSheet_eq_some_iff.mp hps
      exact ⟨pre, s, rest, heq, hpre, h, hh, congrArg Prod.fst hpe⟩
    · intro labels r
      refine ⟨reconcileRow_length _ _ _, ?_, ?_⟩
      · intro j hj hnone
        rw [reconcileRow_getD labs labels r j hj, hnone]
      · intro j i hj hsomei
        rw [reconcileRow_getD labs labels r j hj, hsomei]

/-- Counterexample to C1 as stated: at the one-sheet workbook around
`sheetDup` (header `[Date, Amt, Amt]`, X = 3) the duplicate-expanded
locked template is `[Date, Ledger_Amount x 4]`, the run succeeds, and the
final columns are the template's further expansion under the final
selection — 16 Ledger_Amount columns — not template ++ [TDS_Amount,
LedgerName]. -/
theorem C1_template_lock_counterexample :
    process_file_pd [sheetDup] 3 "tds" = .ok (some dupResult) ∧
    pdLockedTemplate [sheetDup] 3 "tds" = .ok (some dupTemplate) ∧
    dupResult.cols
      ≠ dupTemplate ++ [Cell.str "TDS_Amount", Cell.str "LedgerName"] := by
  decide

/-- C1 (amended): in the distinct-label regime — every sheet
well-labeled, the regime the spec's first-match reading presupposes — a
successful faithful run locks the template from the first non-skipped
sheet's post-rename slice, the final columns are exactly the template
followed by TDS_Amount and LedgerName, every row is total over them, and
reconciliation fills missing template labels with the null marker while
dropping extras; with duplicated labels the invariant fails (see the
counterexample). -/
theorem C1_template_lock (sheets : List Sheet) (X : Nat) (kwRaw : String)
    (df : DF) (hw : ∀ s ∈ sheets, wellLabeled X s = true)
    (hp : process_file_pd sheets X kwRaw = .ok (some df)) :
    ∃ tmpl, pdLockedTemplate sheets X kwRaw = .ok (some tmpl) ∧
      df.cols = tmpl ++ [Cell.str "TDS_Amount", Cell.str "LedgerName"] ∧
      (∀ c ∈ df.cols,
        c ∈ tmpl ∨ c = Cell.str "TDS_Amount" ∨ c = Cell.str "LedgerName") ∧
      (∀ r ∈ df.rows, r.length = df.cols.length) ∧
      (∃ pre s rest, sheets = pre ++ s :: rest ∧
        (∀ u ∈ pre, sheetSkips u = true) ∧
        ∃ h, sheetHeaderIdx s = some h ∧
          tmpl = sliceLabels (sheetHeader s h) X) ∧
      (∀ labels r,
        (reconcileRow tmpl labels r).length = tmpl.length ∧
        (∀ j, j < tmpl.length → idxOfLabel (tmpl.getD j Cell.na) labels = none →
          (reconcileRow tmpl labels r).getD j Cell.na = Cell.na) ∧
        (∀ j i, j < tmpl.length → idxOfLabel (tmpl.getD j Cell.na) labels = some i →
          (reconcileRow tmpl labels r).getD j Cell.na = r.getD i Cell.na)) := by
  have hb := process_file_pd_eq sheets X kwRaw hw
  rw [hp] at hb
  have hpf : process_file sheets X kwRaw = some df := (Except.ok.inj hb).symm
  obtain ⟨tmpl, hlock, hrest⟩ := template_lock_model sheets X kwRaw df hpf
  refine ⟨tmpl, ?_, hrest⟩
  rw [pdLockedTemplate_eq sheets X kwRaw hw, hlock]

/-- Witness for the amended C1, on the concrete workbook: the faithful
run locks a template and the result's columns are that template plus the
two appended columns. -/
theorem C1_template_lock_witness :
    ∃ tmpl, pdLockedTemplate [sheetA, sheetB] 3 "tds" = .ok (some tmpl) ∧
      (DF.mk [Cell.str "Date", Cell.str "Particulars", Cell.str "Ledger_Amount",
          Cell.str "TDS_Amount", Cell.str "LedgerName"]
        [[Cell.str "2024-01-01", Cell.str "Purchase", Cell.num 100, Cell.num 10,
          Cell.str "SheetA"]]).cols
        = tmpl ++ [Cell.str "TDS_Amount", Cell.str "LedgerName"] := by
  obtain ⟨tmpl, hlock, hcols, _⟩ := C1_template_lock [sheetA, sheetB] 3 "tds"
    (DF.mk [Cell.str "Date", Cell.str "Particulars", Cell.str "Ledger_Amount",
        Cell.str "TDS_Amount", Cell.str "LedgerName"]
      [[Cell.str "2024-01-01", Cell.str "Purchase", Cell.num 100, Cell.num 10,
        Cell.str "SheetA"]]) (by decide) (by decide)
  exact ⟨tmpl, hlock, hcols⟩

/-- Concatenation shape on the unique-label model: with distinct final
labels, the result rows are the ordered concatenation of the fragments'
rows under the final column order template, TDS_Amount, LedgerName. -/
theorem result_concat_model (sheets : List Sheet) (X : Nat) (kwRaw : String)
    (df : DF) (tmpl : List Cell)
    (hp : process_file sheets X kwRaw = some df)
    (ht : lockedTemplate sheets X kwRaw = some tmpl)
    (hnd : (tmpl ++ [Cell.str "TDS_Amount", Cell.str "LedgerName"]).Nodup) :
    df.cols = tmpl ++ [Cell.str "TDS_Amount", Cell.str "LedgerName"] ∧
    df.rows = ((resultFrags sheets X kwRaw).map DF.rows).flatten ∧
    (∀ r ∈ df.rows, r.length = df.cols.length) := by
  rcases process_file_cases sheets X kwRaw with ⟨hn, _⟩ |
    ⟨pre, s, rest, labs, frag, heq, hpre, hps, hlock, hfrags, hsome⟩
  · rw [hn] at hp
    cases hp
  · have htl : labs = tmpl := by
      rw [hlock] at ht
      exact Option.some.inj ht
    subst htl
    have hdf : df = selectCols
        (concatFrames (frag :: tailFrags (cleanKeywords kwRaw) X labs rest))
        (labs ++ [Cell.str "TDS_Amount", Cell.str "LedgerName"]) := by
      rw [hsome] at hp
      exact (Option.some.inj hp).symm
    have hdisj := (List.nodup_append.mp hnd).2.2
    have hTDS : Cell.str "TDS_Amount" ∉ labs := fun hmem => hdisj hmem (by simp)
    have hLN : Cell.str "LedgerName" ∉ labs := fun hmem => hdisj hmem (by simp)
    obtain ⟨h, hh, _, _, hpe⟩ := processSheet_eq_some_iff.mp hps
    have hfr : frag = mkFragment none (cleanKeywords kwRaw) X s h :=
      congrArg Prod.snd hpe
    have hlabs : labs = sliceLabels (sheetHeader s h) X := congrArg Prod.fst hpe
    have hcols0 : frag.cols
        = labs ++ [Cell.str "TDS_Amount", Cell.str "LedgerName"] := by
      rw [hfr, hlabs]
      exact (mkFragment_spec_none (cleanKeywords kwRaw) X s h hh).2.2.2.2.2
        (hlabs ▸ hTDS) (hlabs ▸ hLN)
    have hrowlen0 : ∀ r ∈ frag.rows, r.length = frag.cols.length := by
      rw [hfr]
      exact (mkFragment_spec_none (cleanKeywords kwRaw) X s h hh).2.2.2.1
    have hall : ∀ f ∈ frag :: tailFrags (cleanKeywords kwRaw) X labs rest,
        f.cols = labs ++ [Cell.str "TDS_Amount", Cell.str "LedgerName"] ∧
        ∀ r ∈ f.rows, r.length = f.cols.length := by
      intro f hf
      rcases List.mem_cons.mp hf with rfl | hf'
      · exact ⟨hcols0, hrowlen0⟩
      · obtain ⟨s', h', hh', _, rfl⟩ := tailFrags_mem hf'
        exact ⟨(mkFragment_spec_some labs (cleanKeywords kwRaw) X s' h').2.2.2.2.2
            hTDS hLN,
          (mkFragment_spec_some labs (cleanKeywords kwRaw) X s' h').2.2.2.1⟩
    have hcfrows : (concatFrames
        (frag :: tailFrags (cleanKeywords kwRaw) X labs rest)).rows
        = ((frag :: tailFrags (cleanKeywords kwRaw) X labs rest).map DF.rows).flatten :=
      rfl
    have hcfcols : (concatFrames
        (frag :: tailFrags (cleanKeywords kwRaw) X labs rest)).cols
        = labs ++ [Cell.str "TDS_Amount", Cell.str "LedgerName"] := hcols0
    have hid : ∀ r ∈ (concatFrames
        (frag :: tailFrags (cleanKeywords kwRaw) X labs rest)).rows,
        reconcileRow (labs ++ [Cell.str "TDS_Amount", Cell.str "LedgerName"])
          (concatFrames (frag :: tailFrags (cleanKeywords kwRaw) X labs rest)).cols
          r = r := by
      intro r hr
      rw [hcfcols]
      apply reconcileRow_self hnd
      rw [hcfrows] at hr
      obtain ⟨rl, hrl, hrmem⟩ := List.mem_flatten.mp hr
      obtain ⟨f, hfmem, rfl⟩ := List.mem_map.mp hrl
      obtain ⟨hfc, hfl⟩ := hall f hfmem
      rw [← hfc]
      exact hfl r hrmem
    refine ⟨?_, ?_, ?_⟩
    · rw [hdf]
      rfl
    · rw [hdf, hfrags]
      show ((concatFrames (frag :: tailFrags (cleanKeywords kwRaw) X labs rest)).rows.map
        (reconcileRow (labs ++ [Cell.str "TDS_Amount", Cell.str "LedgerName"])
          (concatFrames (frag :: tailFrags (cleanKeywords kwRaw) X labs rest)).cols)) = _
      rw [List.map_congr_left hid]
      simp [hcfrows]
    · intro r hr
      rw [hdf] at hr ⊢
      obtain ⟨r0, _, rfl⟩ := List.mem_map.mp hr
      show (reconcileRow _ _ r0).length = _
      rw [reconcileRow_length]
      rfl

/-- Counterexample to C7 as stated: sheet A and the duplicated-label
sheet both process, but their fragments disagree on columns (the second
expands to seven), so `pd.concat` must align on a duplicate-labeled
axis and raises — the run aborts instead of producing any ordered
concatenation. -/
theorem C7_result_concat_counterexample :
    process_file_pd [sheetA, sheetDup] 3 "tds" = .error .concatError ∧
    sheetSkips sheetA = false ∧ sheetSkips sheetDup = false := by
  decide

/-- C7 (amended): in the distinct-label regime (well-labeled sheets and
distinct final labels), a successful faithful run's table is the ordered
concatenation of all fragment rows — row order within each sheet and
sheet order across sheets preserved — under the final column order
template, TDS_Amount, LedgerName, with every row total over these
columns; outside the regime the run can instead abort in `pd.concat`
(see the counterexample). -/
theorem C7_result_concat (sheets : List Sheet) (X : Nat) (kwRaw : String)
    (df : DF) (tmpl : List Cell)
    (hw : ∀ s ∈ sheets, wellLabeled X s = true)
    (hp : process_file_pd sheets X kwRaw = .ok (some df))
    (ht : pdLockedTemplate sheets X kwRaw = .ok (some tmpl))
    (hnd : (tmpl ++ [Cell.str "TDS_Amount", Cell.str "LedgerName"]).Nodup) :
    df.cols = tmpl ++ [Cell.str "TDS_Amount", Cell.str "LedgerName"] ∧
    pdResultFrags sheets X kwRaw = .ok (resultFrags sheets X kwRaw) ∧
    df.rows = ((resultFrags sheets X kwRaw).map DF.rows).flatten ∧
    (∀ r ∈ df.rows, r.length = df.cols.length) := by
  have hb := process_file_pd_eq sheets X kwRaw hw
  rw [hp] at hb
  have hpf : process_file sheets X kwRaw = some df := (Except.ok.inj hb).symm
  have hlt : lockedTemplate sheets X kwRaw = some tmpl := by
    have hb2 := pdLockedTemplate_eq sheets X kwRaw hw
    rw [ht] at hb2
    exact (Except.ok.inj hb2).symm
  obtain ⟨h1, h2, h3⟩ := result_concat_model sheets X kwRaw df tmpl hpf hlt hnd
  exact ⟨h1, pdResultFrags_eq sheets X kwRaw hw, h2, h3⟩

/-- Witness for the amended C7, on the concrete workbook: the result rows
are the concatenation of the fragments' rows. -/
theorem C7_result_concat_witness :
    (DF.mk [Cell.str "Date", Cell.str "Particulars", Cell.str "Ledger_Amount",
        Cell.str "TDS_Amount", Cell.str "LedgerName"]
      [[Cell.str "2024-01-01", Cell.str "Purchase", Cell.num 100, Cell.num 10,
        Cell.str "SheetA"]]).rows
      = ((resultFrags [sheetA, sheetB] 3 "tds").map DF.rows).flatten := by
  obtain ⟨_, _, hrows, _⟩ := C7_result_concat [sheetA, sheetB] 3 "tds"
    (DF.mk [Cell.str "Date", Cell.str "Particulars", Cell.str "Ledger_Amount",
        Cell.str "TDS_Amount", Cell.str "LedgerName"]
      [[Cell.str "2024-01-01", Cell.str "Purchase", Cell.num 100, Cell.num 10,
        Cell.str "SheetA"]])
    [Cell.str "Date", Cell.str "Particulars", Cell.str "Ledger_Amount"]
    (by decide) (by decide) (by decide) (by decide)
  exact hrows

end TDS
